import Mathlib

/-!
# LiteSpeedTest: the probe driver of `request/request.go`

A shallow embedding of the status-line parser (`parseFirstLine`, `nextLine`,
`parseUintBuf`), of the probe driver `pingInternal` and of the dispatch
façade `Ping`, followed by the properties proved about them.

Conventions of the embedding:

* a Go `[]byte` is a `List Byte` with `Byte = Fin 256`;
* a Go `int` is an `Int` kept in the range of a signed 64-bit integer by
  `wrapInt` after every arithmetic operation that can leave it;
* a Go run-time panic (index or slice out of range) and an exhausted loop
  budget are explicit `Fault`s in the `Except Fault` monad, so that the
  absence of both is a theorem and not an assumption;
* a Go `error` is a value of `GoError`; `none : Option GoError` is `nil`.
-/

namespace LiteSpeedTest

set_option maxRecDepth 100000

/-! ## Data model -/

/-- A Go `byte`. -/
abbrev Byte := Fin 256

/-- Line feed, the byte `'\n'`. -/
def LF : Byte := 10
/-- Carriage return, the byte `'\r'`. -/
def CR : Byte := 13
/-- Space, the byte `' '`. -/
def SP : Byte := 32

/-- Ways in which a run of the embedded code can fail to return normally. -/
inductive Fault where
  | indexOutOfRange
  | sliceOutOfRange
  | outOfFuel
  deriving DecidableEq, Repr

/-- The Go `error` values that occur in `request.go`.  The three errors
that quote the whole response with `%q` carry that buffer. -/
inductive GoError where
  /-- The error `errors.New("need more data: cannot find trailing lf")` -/
  | needMoreData
  /-- The error `fmt.Errorf("cannot find whitespace in the first line of response %q", buf)` -/
  | noWhitespace (buf : List Byte)
  /-- The error `errors.New("empty integer")` -/
  | emptyInteger
  /-- The error `errors.New("unexpected first char found. Expecting 0-9")` -/
  | unexpectedFirstChar
  /-- The error `errors.New("too long int")` -/
  | tooLongInt
  /-- The error `fmt.Errorf("cannot parse response status code: %s. Response %q", err, buf)` -/
  | badStatusCode (inner : GoError) (buf : List Byte)
  /-- The error `fmt.Errorf("unexpected char at the end of status code. Response %q", buf)` -/
  | unexpectedChar (buf : List Byte)
  /-- The error `errors.New("Wrong Status Code")` -/
  | wrongStatusCode
  /-- The error `errors.New("not support config")` -/
  | notSupportConfig
  /-- The sentinel error `io.EOF` -/
  | eof
  /-- An error produced outside `request.go` (a constructor, the dialer, the connection). -/
  | external (code : Nat)
  deriving DecidableEq, Repr

deriving instance DecidableEq for Except

/-- Reduce an integer to the range of a 64-bit Go `int`. -/
def wrapInt (x : Int) : Int := (x + 2 ^ 63) % 2 ^ 64 - 2 ^ 63

/-- The largest Go `int`. -/
def maxInt : Int := 2 ^ 63 - 1

/-! ## Go primitives on byte slices -/

/-- The library function `bytes.IndexByte`: index of the first `c` in `b`, or `-1`. -/
def indexByte : List Byte → Byte → Int
  | [], _ => -1
  | x :: xs, c =>
    if x = c then 0
    else
      let r := indexByte xs c
      if r < 0 then -1 else r + 1

/-- The index expression `b[i]`; it panics outside `0 ≤ i < len(b)`. -/
def goIndex (b : List Byte) (i : Int) : Except Fault Byte :=
  if 0 ≤ i ∧ i < b.length then
    match b.get? i.toNat with
    | some c => .ok c
    | none => .error .indexOutOfRange
  else .error .indexOutOfRange

/-- The slice expression `b[lo:hi]`; it panics unless `0 ≤ lo ≤ hi ≤ len(b)`.
Go bounds `hi` by the capacity of `b`; the model takes the length as the
capacity, which is the stricter bound. -/
def goSlice (b : List Byte) (lo hi : Int) : Except Fault (List Byte) :=
  if 0 ≤ lo ∧ lo ≤ hi ∧ hi ≤ b.length then
    .ok ((b.take hi.toNat).drop lo.toNat)
  else .error .sliceOutOfRange

/-! ## The status-line parser -/

/-- Embedding of `nextLine`. -/
def nextLine (b : List Byte) : Except Fault (List Byte × List Byte × Option GoError) :=
  let nNext := indexByte b LF
  if nNext < 0 then
    .ok ([], [], some .needMoreData)
  else do
    let n := nNext
    let isCR ← if n > 0 then (do let c ← goIndex b (n - 1); pure (decide (c = CR))) else pure false
    let n := if isCR then n - 1 else n
    let line ← goSlice b 0 n
    let rest ← goSlice b (nNext + 1) b.length
    pure (line, rest, none)

/-- The loop `for i := 0; i < n; i++ { ... }` of `parseUintBuf`, entered with
loop variable `i` and accumulator `v`; `fuel` bounds the number of iterations. -/
def parseUintLoop : Nat → List Byte → Int → Int → Except Fault (Int × Int × Option GoError)
  | 0, b, i, v =>
    if i < b.length then .error .outOfFuel else .ok (v, b.length, none)
  | fuel + 1, b, i, v =>
    if i < b.length then do
      let c ← goIndex b i
      let k : Nat := (c.val + 256 - 48) % 256
      if k > 9 then
        if i = 0 then
          pure (-1, i, some .unexpectedFirstChar)
        else
          pure (v, i, none)
      else
        let vNew := wrapInt (wrapInt (10 * v) + (k : Int))
        if vNew < v then
          pure (-1, i, some .tooLongInt)
        else
          parseUintLoop fuel b (i + 1) vNew
    else .ok (v, b.length, none)

/-- Embedding of `parseUintBuf`. -/
def parseUintBuf (b : List Byte) : Except Fault (Int × Int × Option GoError) :=
  let n : Int := b.length
  if n = 0 then
    .ok (-1, 0, some .emptyInteger)
  else
    parseUintLoop b.length b 0 0

/-- The loop `for len(b) == 0 { ... }` of `parseFirstLine`, entered with the
current line `b` and the unread remainder `bNext`.  It returns the values of
`b`, `bNext` and `err` with which the loop is left. -/
def firstLineLoop : Nat → List Byte → List Byte →
    Except Fault (List Byte × List Byte × Option GoError)
  | 0, b, bNext =>
    if b.length = 0 then .error .outOfFuel else .ok (b, bNext, none)
  | fuel + 1, b, bNext =>
    if b.length = 0 then do
      let (b1, bNext1, err) ← nextLine bNext
      if err ≠ none then
        pure (b1, bNext1, err)
      else
        firstLineLoop fuel b1 bNext1
    else .ok (b, bNext, none)

/-- Embedding of `parseFirstLine`. -/
def parseFirstLine (buf : List Byte) : Except Fault (Int × Option GoError) := do
  let (b, bNext, err) ← firstLineLoop (buf.length + 1) [] buf
  if err ≠ none then
    pure (0, err)
  else
    -- parse protocol
    let n := indexByte b SP
    if n < 0 then
      pure (0, some (.noWhitespace buf))
    else
      let b ← goSlice b (n + 1) b.length
      -- parse status code
      let (statusCode, n, err) ← parseUintBuf b
      if err ≠ none then
        pure (0, some (.badStatusCode (err.getD .emptyInteger) buf))
      else
        let bad ← if (b.length : Int) > n then
            (do let c ← goIndex b n; pure (decide (c ≠ SP))) else pure false
        if bad then
          pure (0, some (.unexpectedChar buf))
        else if statusCode = 204 ∨ statusCode = 200 then
          pure ((buf.length : Int) - (bNext.length : Int), none)
        else
          pure (0, some .wrongStatusCode)


/-- The bytes of an ASCII string. -/
def bytesOf (s : String) : List Byte := s.toList.map (fun c => Fin.ofNat c.toNat)

/-! ## Reference definitions, in the words of the specification -/

/-- A line with one trailing CR, when it has one, removed. -/
def stripCR (raw : List Byte) : List Byte :=
  if raw.getLast? = some CR then raw.dropLast else raw

/-- The LF-terminated lines of a buffer in order, each without its LF; `cur`
holds the bytes already read of the line in progress.  Bytes after the last
LF belong to no line. -/
def linesFrom : List Byte → List Byte → List (List Byte)
  | _, [] => []
  | cur, c :: cs => if c = LF then cur :: linesFrom [] cs else linesFrom (cur ++ [c]) cs

/-- The LF-terminated lines of a buffer. -/
def terminatedLines (buf : List Byte) : List (List Byte) := linesFrom [] buf

/-- The first LF-terminated line that is non-empty once one trailing CR is stripped. -/
def firstNonEmptyLine (buf : List Byte) : Option (List Byte) :=
  ((terminatedLines buf).map stripCR).find? (fun l => !l.isEmpty)

/-- The ASCII digits `'0'..'9'`. -/
def isDigit (c : Byte) : Bool := decide (48 ≤ c.val ∧ c.val ≤ 57)

/-- The exact (unbounded) decimal value of a string of digits. -/
def decimalValue (ds : List Byte) : Nat := ds.foldl (fun acc c => 10 * acc + (c.val - 48)) 0

/-- The bytes that follow the first space of a line. -/
def afterFirstSpace (line : List Byte) : List Byte :=
  (line.dropWhile (fun c => decide (c ≠ SP))).drop 1

/-- A status line is accepted when it contains a space and the bytes after its
first space start with a non-empty run of digits of value 200 or 204 that is
followed by the end of the line or by a space. -/
def statusLineOk (line : List Byte) : Bool :=
  let after := afterFirstSpace line
  let run := after.takeWhile isDigit
  let tail := after.dropWhile isDigit
  decide (SP ∈ line) && !run.isEmpty &&
    (decide (decimalValue run = 200) || decide (decimalValue run = 204)) &&
    (tail.isEmpty || decide (tail.head? = some SP))

/-- The buffers the specification accepts: the first non-empty line is an
accepted status line. -/
def specAccepts (buf : List Byte) : Bool :=
  match firstNonEmptyLine buf with
  | some line => statusLineOk line
  | none => false

/-- The reference decimal parser: value and length of the maximal leading run
of digits, or nothing when that run is empty. -/
def refParseUint (b : List Byte) : Option (Nat × Nat) :=
  let run := b.takeWhile isDigit
  if run.isEmpty then none else some (decimalValue run, run.length)

/-- A concatenation of empty lines, each `"\n"` or `"\r\n"`. -/
inductive BlankLines : List Byte → Prop where
  | nil : BlankLines []
  | lf {p : List Byte} : BlankLines p → BlankLines (LF :: p)
  | crlf {p : List Byte} : BlankLines p → BlankLines (CR :: LF :: p)

/-! ## The probe driver -/

/-- The constant `tcpTimeout = 2400 * time.Millisecond`, in nanoseconds. -/
def tcpTimeout : Int := 2400 * 1000000

/-- The constant `remoteHost`. -/
def remoteHost : String := "clients3.google.com"

/-- The variable `httpRequest`. -/
def httpRequest : List Byte :=
  bytesOf ("GET /generate_204 HTTP/1.1\r\nHost: clients3.google.com\r\nUser-Agent: Mozilla/5.0 " ++
    "(X11; Linux x86_64) AppleWebKit/537.36 (KHTML, like Gecko) Chrome/85.0.4183.121 " ++
    "Safari/537.36\r\n\r\n")

/-- The smallest 64-bit integer. -/
def minInt : Int := -(2 ^ 63)

/-- The library function `Time.Sub` on two readings of the monotonic clock in
nanoseconds: their difference as a `time.Duration`, saturating. -/
def timeSub (t u : Int) : Int :=
  let d := t - u
  if d > maxInt then maxInt else if d < minInt then minInt else d

/-- The library function `Duration.Milliseconds`: `int64(d) / 1e6`, truncating. -/
def milliseconds (d : Int) : Int := Int.tdiv d 1000000

/-- What a connection is asked to do. -/
inductive ConnEvent where
  | setDeadline (t : Int)
  | write (p : List Byte)
  | read (capacity : Nat)
  | close
  deriving DecidableEq, Repr

/-- The behaviour of the connection and of the clock during one run of
`pingInternal`: the three clock readings in program order (nanoseconds), the
error of `Write`, the bytes `Read` stores at the start of the buffer, and the
error of `Read`. -/
structure ConnEnv where
  nowDeadline : Int
  nowStart : Int
  nowEnd : Int
  writeErr : Option GoError
  readData : List Byte
  readErr : Option GoError

/-- The buffer after `Read` stored `data` at its start (what does not fit is not stored). -/
def fillBuf (buf data : List Byte) : List Byte :=
  data.take buf.length ++ buf.drop (min data.length buf.length)

/-- The body of `pingInternal`, before the deferred `Close` runs. -/
def pingInternalBody (env : ConnEnv) : Except Fault (Int × Option GoError) × List ConnEvent :=
  let tr := [ConnEvent.setDeadline (env.nowDeadline + tcpTimeout)]
  let start := env.nowStart
  let tr := tr ++ [ConnEvent.write httpRequest]
  if env.writeErr ≠ none then
    (.ok (0, env.writeErr), tr)
  else
    let buf := List.replicate 128 (0 : Byte)
    let tr := tr ++ [ConnEvent.read buf.length]
    let buf := fillBuf buf env.readData
    let err := env.readErr
    if err ≠ none ∧ err ≠ some GoError.eof then
      (.ok (0, err), tr)
    else
      match parseFirstLine buf with
      | .error f => (.error f, tr)
      | .ok (_, some e) => (.ok (0, some e), tr)
      | .ok (_, none) =>
        let elapsed := milliseconds (timeSub env.nowEnd start)
        (.ok (elapsed, none), tr)

/-- Embedding of `pingInternal`: the body, then the deferred `remoteConn.Close()`,
which runs on every way out of the body. -/
def pingInternal (env : ConnEnv) : Except Fault (Int × Option GoError) × List ConnEvent :=
  let r := pingInternalBody env
  (r.1, r.2 ++ [ConnEvent.close])

/-! ## The dispatch façade -/

/-- The four dialers of package `outbound`. -/
inductive DialerKind where
  | shadowSocks
  | shadowSocksR
  | vmess
  | trojan
  deriving DecidableEq, Repr

/-- The dynamic type of the `option interface{}` argument of `Ping`: a pointer to
one of the four option structs (its content abstracted to `cfg`), or a value of
any other dynamic type, `nil` included. -/
inductive ProbeOption where
  | shadowSocks (cfg : Nat)
  | shadowSocksR (cfg : Nat)
  | vmess (cfg : Nat)
  | trojan (cfg : Nat)
  | other (tag : Nat)
  deriving DecidableEq, Repr

/-- The fields `Ping` sets in `C.Metadata`. -/
structure Metadata where
  netWork : Nat
  type : Nat
  srcPort : String
  dstPort : String
  addrType : Nat
  host : String
  deriving DecidableEq, Repr

/-- What `Ping` does to the world outside `request.go`. -/
inductive Event where
  | construct (kind : DialerKind) (cfg : Nat)
  | withTimeout (deadline : Int)
  | dialContext (dialer : Nat) (ctxDeadline : Int) (target : Metadata)
  | conn (e : ConnEvent)
  | cancel
  deriving DecidableEq, Repr

/-- The world outside `request.go` during one run of `Ping`: the four
constructors of package `outbound` (each returns a dialer, `none` for a nil
interface, and an error), the clock reading when `Ping` is entered, the clock
reading taken by `context.WithTimeout`, and `DialContext`, which fails or
yields a connection. -/
structure PingEnv where
  newShadowSocks : Nat → Option Nat × Option GoError
  newShadowSocksR : Nat → Option Nat × Option GoError
  newVmess : Nat → Option Nat × Option GoError
  newTrojan : Nat → Option Nat × Option GoError
  nowEntry : Int
  nowCtx : Int
  dialContext : Nat → Int → Metadata → Except GoError ConnEnv

/-- The result of `Ping` together with the events it caused. -/
abbrev PingRun := Except Fault (Int × Option GoError) × List Event

/-- The part of `Ping` that selects and constructs the dialer.  It yields the
final values of `d` and of the trace, or the early `return 0, err`. -/
def pingConstruct (env : PingEnv) (option : ProbeOption) :
    Except PingRun (Option Nat × List Event) := do
  let mut d : Option Nat := none
  let mut err : Option GoError := none
  let mut tr : List Event := []
  if let .shadowSocks ssOption := option then
    (d, err) := env.newShadowSocks ssOption
    tr := tr ++ [Event.construct .shadowSocks ssOption]
    if err ≠ none then
      throw (.ok (0, err), tr)
  if let .shadowSocksR ssrOption := option then
    (d, err) := env.newShadowSocksR ssrOption
    tr := tr ++ [Event.construct .shadowSocksR ssrOption]
    if err ≠ none then
      throw (.ok (0, err), tr)
  if let .vmess vmessOption := option then
    (d, err) := env.newVmess vmessOption
    tr := tr ++ [Event.construct .vmess vmessOption]
    if err ≠ none then
      throw (.ok (0, err), tr)
  if let .trojan trojanOption := option then
    (d, err) := env.newTrojan trojanOption
    tr := tr ++ [Event.construct .trojan trojanOption]
    if err ≠ none then
      throw (.ok (0, err), tr)
  pure (d, tr)

/-- Embedding of `Ping`. -/
def Ping (env : PingEnv) (option : ProbeOption) : PingRun :=
  match pingConstruct env option with
  | .error ret => ret
  | .ok (none, tr) => (.ok (0, some .notSupportConfig), tr)
  | .ok (some d, tr) =>
    let deadline := env.nowCtx + tcpTimeout
    let tr := tr ++ [Event.withTimeout deadline]
    let target : Metadata :=
      { netWork := 0, type := 0, srcPort := "", dstPort := "80", addrType := 3, host := remoteHost }
    let tr := tr ++ [Event.dialContext d deadline target]
    -- `defer cancel()` runs on each of the two ways out below
    match env.dialContext d deadline target with
    | .error e => (.ok (0, some e), tr ++ [Event.cancel])
    | .ok remoteConn =>
      let r := pingInternal remoteConn
      (r.1, tr ++ r.2.map Event.conn ++ [Event.cancel])

/-! ## Auxiliary definitions used in the statements and proofs -/

/-- What the blank-line loop of `parseFirstLine` computes when it is started on
`bNext`: either no non-empty line is terminated by an LF and the loop ends with
the error of `nextLine`, or `bNext` is a run of blank lines `p`, then the line
`raw` and its LF, then `rest`, and the loop ends with the stripped line and `rest`. -/
def LoopSpec (bNext : List Byte)
    (r : Except Fault (List Byte × List Byte × Option GoError)) : Prop :=
  (r = .ok ([], [], some .needMoreData) ∧ firstNonEmptyLine bNext = none) ∨
  (∃ p raw rest, bNext = p ++ raw ++ LF :: rest ∧ BlankLines p ∧ LF ∉ raw ∧ stripCR raw ≠ [] ∧
    r = .ok (stripCR raw, rest, none) ∧ firstNonEmptyLine bNext = some (stripCR raw))

/-- The loop of `parseUintBuf` as a recursion over the bytes not yet read:
`i` is the loop variable and `v` the accumulator. -/
def uintRun : List Byte → Int → Int → Int × Int × Option GoError
  | [], i, v => (v, i, none)
  | c :: cs, i, v =>
    if (c.val + 256 - 48) % 256 > 9 then
      if i = 0 then (-1, i, some .unexpectedFirstChar) else (v, i, none)
    else
      let vNew := wrapInt (wrapInt (10 * v) + (((c.val + 256 - 48) % 256 : Nat) : Int))
      if vNew < v then (-1, i, some .tooLongInt) else uintRun cs (i + 1) vNew

/-- The exact value of the accumulator `v` extended by the digits `ds`. -/
def decAcc (v : Int) (ds : List Byte) : Int :=
  ds.foldl (fun acc c => 10 * acc + ((c.val : Int) - 48)) v

/-- The statements of `parseFirstLine` after its loop, for the line `b` and the
remainder `bNext` with which the loop ended. -/
def parseStatus (buf b bNext : List Byte) : Except Fault (Int × Option GoError) :=
  let n := indexByte b SP
  if n < 0 then
    pure (0, some (.noWhitespace buf))
  else do
    let b ← goSlice b (n + 1) b.length
    let (statusCode, n, err) ← parseUintBuf b
    if err ≠ none then
      pure (0, some (.badStatusCode (err.getD .emptyInteger) buf))
    else
      let bad ← if (b.length : Int) > n then
          (do let c ← goIndex b n; pure (decide (c ≠ SP))) else pure false
      if bad then
        pure (0, some (.unexpectedChar buf))
      else if statusCode = 204 ∨ statusCode = 200 then
        pure ((buf.length : Int) - (bNext.length : Int), none)
      else
        pure (0, some .wrongStatusCode)

/-- The 128-byte buffer `pingInternal` parses. -/
def probeBuf (env : ConnEnv) : List Byte := fillBuf (List.replicate 128 (0 : Byte)) env.readData

/-- A connection that answers `204` within the same millisecond: the clock
advances by 999999 ns between the two readings around the exchange. -/
def fastReply : ConnEnv :=
  { nowDeadline := 0, nowStart := 0, nowEnd := 999999, writeErr := none,
    readData := bytesOf "HTTP/1.1 204 No Content\r\n\r\n", readErr := none }

/-- A connection whose first read delivers only `"HTTP/1.1 204"`. -/
def shortRead : ConnEnv :=
  { nowDeadline := 0, nowStart := 0, nowEnd := 5000000, writeErr := none,
    readData := bytesOf "HTTP/1.1 204", readErr := none }

/-- The dialers constructed during a run, in order. -/
def constructions (tr : List Event) : List (DialerKind × Nat) :=
  tr.filterMap (fun e => match e with
    | .construct kind cfg => some (kind, cfg)
    | _ => none)

/-- The `C.Metadata` value `Ping` passes to `DialContext`. -/
def probeTarget : Metadata :=
  { netWork := 0, type := 0, srcPort := "", dstPort := "80", addrType := 3, host := remoteHost }

/-- The run of `Ping` from the point where dialer `d` has been constructed, after the events `tr`. -/
def pingDial (env : PingEnv) (d : Nat) (tr : List Event) : PingRun :=
  match env.dialContext d (env.nowCtx + tcpTimeout) probeTarget with
  | .error e =>
    (.ok (0, some e),
      tr ++ [Event.withTimeout (env.nowCtx + tcpTimeout)] ++
        [Event.dialContext d (env.nowCtx + tcpTimeout) probeTarget] ++ [Event.cancel])
  | .ok remoteConn =>
    ((pingInternal remoteConn).1,
      tr ++ [Event.withTimeout (env.nowCtx + tcpTimeout)] ++
        [Event.dialContext d (env.nowCtx + tcpTimeout) probeTarget] ++
        (pingInternal remoteConn).2.map Event.conn ++ [Event.cancel])

/-- The run of `Ping` once the constructor of the matching dialer has returned `r`, after the events `tr`. -/
def pingAfter (env : PingEnv) (r : Option Nat × Option GoError) (tr : List Event) : PingRun :=
  if r.2 ≠ none then (.ok (0, r.2), tr)
  else match r.1 with
    | none => (.ok (0, some .notSupportConfig), tr)
    | some d => pingDial env d tr

/-- A run of `Ping` in which the Trojan dial takes one second and the server then
answers `204` after 50 ms. -/
def slowDial : PingEnv :=
  { newShadowSocks := fun cfg => (some cfg, none)
    newShadowSocksR := fun cfg => (some cfg, none)
    newVmess := fun cfg => (some cfg, none)
    newTrojan := fun cfg => (some cfg, none)
    nowEntry := 0
    nowCtx := 0
    dialContext := fun _ _ _ =>
      .ok { nowDeadline := 1000000000, nowStart := 1000000000, nowEnd := 1050000000,
            writeErr := none, readData := bytesOf "HTTP/1.1 204 No Content\r\n\r\n",
            readErr := none } }

/-! ## Lemmas on the primitives -/

theorem indexByte_lt_length (b : List Byte) (c : Byte) : indexByte b c < b.length := by
  induction b with
  | nil => simp [indexByte]
  | cons x xs ih =>
    simp only [indexByte, List.length_cons]
    split_ifs <;> push_cast <;> omega

theorem indexByte_ge (b : List Byte) (c : Byte) : -1 ≤ indexByte b c := by
  induction b with
  | nil => simp [indexByte]
  | cons x xs ih =>
    simp only [indexByte]
    split_ifs <;> omega

theorem indexByte_of_not_mem {b : List Byte} {c : Byte} (h : c ∉ b) : indexByte b c = -1 := by
  induction b with
  | nil => simp [indexByte]
  | cons x xs ih =>
    simp only [List.mem_cons, not_or] at h
    have hx : ¬ x = c := fun e => h.1 e.symm
    simp [indexByte, hx, ih h.2]

theorem indexByte_append_cons {pre : List Byte} {c : Byte} (post : List Byte) (h : c ∉ pre) :
    indexByte (pre ++ c :: post) c = pre.length := by
  induction pre with
  | nil => simp [indexByte]
  | cons x xs ih =>
    simp only [List.mem_cons, not_or] at h
    have hx : ¬ x = c := fun e => h.1 e.symm
    have := ih h.2
    have hstep : indexByte (x :: (xs ++ c :: post)) c =
        if indexByte (xs ++ c :: post) c < 0 then -1 else indexByte (xs ++ c :: post) c + 1 := by
      simp [indexByte, hx]
    rw [List.cons_append, hstep, this, List.length_cons]
    split_ifs <;> push_cast <;> omega

theorem indexByte_split {b : List Byte} {c : Byte} (h : 0 ≤ indexByte b c) :
    ∃ pre post, b = pre ++ c :: post ∧ c ∉ pre := by
  by_cases hm : c ∈ b
  · obtain ⟨pre, post, hb, hpre⟩ := List.eq_append_cons_of_mem hm
    exact ⟨pre, post, hb, hpre⟩
  · rw [indexByte_of_not_mem hm] at h
    omega

theorem goIndex_append_cons (pre : List Byte) (c : Byte) (post : List Byte) (i : Int)
    (hi : i = pre.length) : goIndex (pre ++ c :: post) i = .ok c := by
  subst hi
  have h1 : (0 : Int) ≤ (pre.length : Int) ∧ (pre.length : Int) < ((pre ++ c :: post).length : Int) := by
    simp only [List.length_append, List.length_cons]
    push_cast
    omega
  have h2 : (pre ++ c :: post).get? pre.length = some c := by
    rw [List.get?_eq_getElem?, List.getElem?_append_right (le_refl _)]
    simp
  simp only [goIndex, h1, and_self, if_true, Int.toNat_ofNat, h2]

theorem goSlice_front (pre post : List Byte) (hi : Int) (h : hi = pre.length) :
    goSlice (pre ++ post) 0 hi = .ok pre := by
  subst h
  have h1 : (0 : Int) ≤ 0 ∧ (0 : Int) ≤ (pre.length : Int) ∧
      (pre.length : Int) ≤ ((pre ++ post).length : Int) := by
    refine ⟨le_refl _, Int.ofNat_nonneg _, ?_⟩
    simp only [List.length_append]
    push_cast
    omega
  simp only [goSlice, h1, and_self, if_true, Int.toNat_ofNat, Int.toNat_zero, List.drop_zero]
  simp

theorem goSlice_back (pre post : List Byte) (lo hi : Int) (hlo : lo = pre.length)
    (hhi : hi = (pre ++ post).length) : goSlice (pre ++ post) lo hi = .ok post := by
  subst hlo hhi
  have h1 : (0 : Int) ≤ (pre.length : Int) ∧ (pre.length : Int) ≤ ((pre ++ post).length : Int) ∧
      ((pre ++ post).length : Int) ≤ ((pre ++ post).length : Int) := by
    refine ⟨Int.ofNat_nonneg _, ?_, le_refl _⟩
    simp only [List.length_append]
    push_cast
    omega
  simp only [goSlice, h1, and_self, if_true, Int.toNat_ofNat]
  rw [List.take_of_length_le (le_refl _), List.drop_left]


/-! ## `nextLine` -/

theorem stripCR_nil : stripCR [] = [] := by
  simp [stripCR]

theorem stripCR_concat (init : List Byte) (x : Byte) :
    stripCR (init ++ [x]) = if x = CR then init else init ++ [x] := by
  simp [stripCR]

theorem nextLine_noLF {b : List Byte} (h : LF ∉ b) :
    nextLine b = .ok ([], [], some .needMoreData) := by
  simp [nextLine, indexByte_of_not_mem h]

theorem goIndex_eq (b pre : List Byte) (c : Byte) (post : List Byte) (i : Int)
    (hb : b = pre ++ c :: post) (hi : i = pre.length) : goIndex b i = .ok c := by
  subst hb
  exact goIndex_append_cons pre c post i hi

theorem goSlice_front_eq (b pre post : List Byte) (hi : Int) (hb : b = pre ++ post)
    (h : hi = pre.length) : goSlice b 0 hi = .ok pre := by
  subst hb
  exact goSlice_front pre post hi h

theorem goSlice_back_eq (b pre post : List Byte) (lo hi : Int) (hb : b = pre ++ post)
    (hlo : lo = pre.length) (hhi : hi = b.length) : goSlice b lo hi = .ok post := by
  subst hb
  exact goSlice_back pre post lo hi hlo hhi

theorem nextLine_split_eq (b raw rest : List Byte) (hb : b = raw ++ LF :: rest) (h : LF ∉ raw) :
    nextLine b = .ok (stripCR raw, rest, none) := by
  have hidx : indexByte b LF = raw.length := by
    rw [hb]
    exact indexByte_append_cons rest h
  have hback : goSlice b ((raw.length : Int) + 1) b.length = .ok rest :=
    goSlice_back_eq b (raw ++ [LF]) rest _ _ (by simp [hb]) (by simp) rfl
  have hnn : ¬ ((raw.length : Int) < 0) := by omega
  rcases List.eq_nil_or_concat raw with hnil | ⟨init, x, hraw⟩
  · subst hnil
    have hfront : goSlice b 0 ((([] : List Byte).length : Nat) : Int) = .ok [] :=
      goSlice_front_eq b [] b _ (by simp) rfl
    have hz : ¬ ((0 : Int) < ((([] : List Byte).length : Nat) : Int)) := by simp
    simp only [nextLine, hidx, hnn, if_false, gt_iff_lt, hz, hfront, hback, stripCR_nil,
      bind, Except.bind, pure, Except.pure]
    rfl
  · rw [List.concat_eq_append] at hraw
    subst hraw
    have hget : goIndex b (((init ++ [x]).length : Int) - 1) = .ok x :=
      goIndex_eq b init x (LF :: rest) _ (by simp [hb]) (by simp)
    have hpos : (0 : Int) < ((init ++ [x]).length : Int) := by simp
    simp only [nextLine, hidx, hnn, if_false, gt_iff_lt, hpos, if_true, hget, hback,
      stripCR_concat, bind, Except.bind, pure, Except.pure]
    by_cases hx : x = CR
    · have hfront : goSlice b 0 (((init ++ [x]).length : Int) - 1) = .ok init :=
        goSlice_front_eq b init ([x] ++ LF :: rest) _ (by simp [hb]) (by simp)
      simp only [hx, decide_True, if_true, hfront]
      simp only [hx] at hfront
      simp only [hfront]
    · have hfront : goSlice b 0 ((init.length : Int) + 1) = .ok (init ++ [x]) :=
        goSlice_front_eq b (init ++ [x]) (LF :: rest) _ (by simp [hb]) (by simp)
      simp only [hx, decide_False, if_false]
      simp [hfront]

theorem nextLine_split {raw : List Byte} (rest : List Byte) (h : LF ∉ raw) :
    nextLine (raw ++ LF :: rest) = .ok (stripCR raw, rest, none) :=
  nextLine_split_eq _ raw rest rfl h

/-! ## The blank-line loop -/

theorem firstLineLoop_nonempty (fuel : Nat) {b : List Byte} (bNext : List Byte) (h : b ≠ []) :
    firstLineLoop fuel b bNext = .ok (b, bNext, none) := by
  have hl : ¬ b.length = 0 := by simpa using h
  cases fuel <;> simp [firstLineLoop, hl]

theorem firstLineLoop_noLF (fuel : Nat) {bNext : List Byte} (h : LF ∉ bNext) :
    firstLineLoop (fuel + 1) [] bNext = .ok ([], [], some .needMoreData) := by
  simp [firstLineLoop, nextLine_noLF h, bind, Except.bind, pure, Except.pure]

theorem firstLineLoop_split (fuel : Nat) {raw : List Byte} (rest : List Byte) (h : LF ∉ raw) :
    firstLineLoop (fuel + 1) [] (raw ++ LF :: rest) = firstLineLoop fuel (stripCR raw) rest := by
  simp [firstLineLoop, nextLine_split rest h, bind, Except.bind, pure, Except.pure]

theorem stripCR_eq_nil {raw : List Byte} (h : stripCR raw = []) : raw = [] ∨ raw = [CR] := by
  rcases List.eq_nil_or_concat raw with hnil | ⟨init, x, hraw⟩
  · exact Or.inl hnil
  · rw [List.concat_eq_append] at hraw
    subst hraw
    rw [stripCR_concat] at h
    by_cases hx : x = CR
    · simp only [hx, if_true] at h
      subst h
      subst hx
      exact Or.inr rfl
    · simp [hx] at h

theorem blankLines_line {raw p : List Byte} (h : stripCR raw = []) (hp : BlankLines p) :
    BlankLines (raw ++ LF :: p) := by
  rcases stripCR_eq_nil h with h0 | h1
  · subst h0
    exact BlankLines.lf hp
  · subst h1
    exact BlankLines.crlf hp

theorem linesFrom_noLF (cur : List Byte) {b : List Byte} (h : LF ∉ b) : linesFrom cur b = [] := by
  induction b generalizing cur with
  | nil => rfl
  | cons c cs ih =>
    simp only [List.mem_cons, not_or] at h
    have hc : ¬ c = LF := fun e => h.1 e.symm
    simp [linesFrom, hc, ih _ h.2]

theorem linesFrom_split (cur : List Byte) {raw : List Byte} (rest : List Byte) (h : LF ∉ raw) :
    linesFrom cur (raw ++ LF :: rest) = (cur ++ raw) :: linesFrom [] rest := by
  induction raw generalizing cur with
  | nil => simp [linesFrom]
  | cons c cs ih =>
    simp only [List.mem_cons, not_or] at h
    have hc : ¬ c = LF := fun e => h.1 e.symm
    simp [linesFrom, hc, ih _ h.2]

theorem firstNonEmptyLine_noLF {b : List Byte} (h : LF ∉ b) : firstNonEmptyLine b = none := by
  simp [firstNonEmptyLine, terminatedLines, linesFrom_noLF [] h]

theorem firstNonEmptyLine_split {raw : List Byte} (rest : List Byte) (h : LF ∉ raw) :
    firstNonEmptyLine (raw ++ LF :: rest) =
      if stripCR raw = [] then firstNonEmptyLine rest else some (stripCR raw) := by
  simp only [firstNonEmptyLine, terminatedLines, linesFrom_split [] rest h, List.nil_append,
    List.map_cons, List.find?_cons]
  by_cases he : stripCR raw = []
  · simp [he]
  · have hne : (stripCR raw).isEmpty = false := by
      cases hs : stripCR raw with
      | nil => exact absurd hs he
      | cons _ _ => rfl
    simp [he, hne]

theorem firstLineLoop_spec (n : Nat) : ∀ (bNext : List Byte) (fuel : Nat),
    bNext.length ≤ n → bNext.length < fuel → LoopSpec bNext (firstLineLoop fuel [] bNext) := by
  induction n with
  | zero =>
    intro bNext fuel hn hf
    have hnil : bNext = [] := List.length_eq_zero.mp (Nat.le_zero.mp hn)
    subst hnil
    obtain ⟨f, rfl⟩ : ∃ f, fuel = f + 1 := ⟨fuel - 1, by simp at hf; omega⟩
    left
    exact ⟨firstLineLoop_noLF f (by simp), firstNonEmptyLine_noLF (by simp)⟩
  | succ n ih =>
    intro bNext fuel hn hf
    obtain ⟨f, rfl⟩ : ∃ f, fuel = f + 1 := ⟨fuel - 1, by omega⟩
    by_cases hm : LF ∈ bNext
    · obtain ⟨raw, rest, hb, hraw⟩ := List.eq_append_cons_of_mem hm
      subst hb
      have hlen : rest.length ≤ n ∧ rest.length < f := by
        simp only [List.length_append, List.length_cons] at hn hf
        omega
      rw [firstLineLoop_split f rest hraw]
      by_cases he : stripCR raw = []
      · rw [he]
        rcases ih rest f hlen.1 hlen.2 with ⟨hr, hnone⟩ | ⟨p, raw2, rest2, hb2, hp, hraw2, hne, hr, hsome⟩
        · left
          refine ⟨hr, ?_⟩
          rw [firstNonEmptyLine_split rest hraw, if_pos he, hnone]
        · right
          refine ⟨raw ++ LF :: p, raw2, rest2, ?_, blankLines_line he hp, hraw2, hne, hr, ?_⟩
          · rw [hb2]
            simp
          · rw [firstNonEmptyLine_split rest hraw, if_pos he, hsome]
      · right
        refine ⟨[], raw, rest, by simp, BlankLines.nil, hraw, he, ?_, ?_⟩
        · exact firstLineLoop_nonempty f rest he
        · rw [firstNonEmptyLine_split rest hraw, if_neg he]
    · left
      exact ⟨firstLineLoop_noLF f hm, firstNonEmptyLine_noLF hm⟩

theorem firstLineLoop_spec_buf (buf : List Byte) :
    LoopSpec buf (firstLineLoop (buf.length + 1) [] buf) :=
  firstLineLoop_spec buf.length buf (buf.length + 1) (le_refl _) (Nat.lt_succ_self _)

/-! ## `parseUintBuf` -/

theorem parseUintLoop_eq_uintRun (suf : List Byte) : ∀ (pre : List Byte) (v : Int) (fuel : Nat),
    suf.length ≤ fuel →
    parseUintLoop fuel (pre ++ suf) pre.length v = .ok (uintRun suf pre.length v) := by
  induction suf with
  | nil =>
    intro pre v fuel _
    cases fuel <;> simp [parseUintLoop, uintRun]
  | cons c cs ih =>
    intro pre v fuel hf
    obtain ⟨f, rfl⟩ : ∃ f, fuel = f + 1 := ⟨fuel - 1, by simp at hf; omega⟩
    have hlt : (pre.length : Int) < ((pre ++ c :: cs).length : Int) := by
      simp only [List.length_append, List.length_cons]
      push_cast
      omega
    have hget : goIndex (pre ++ c :: cs) (pre.length : Int) = .ok c :=
      goIndex_append_cons pre c cs _ rfl
    have hrec := ih (pre ++ [c]) v
    have hnext : ∀ w, parseUintLoop f (pre ++ c :: cs) ((pre.length : Int) + 1) w =
        .ok (uintRun cs ((pre.length : Int) + 1) w) := by
      intro w
      have := ih (pre ++ [c]) w f (by simp at hf; omega)
      simpa using this
    simp only [parseUintLoop, hlt, if_true, hget, uintRun, bind, Except.bind, pure, Except.pure]
    split_ifs <;> first | rfl | exact hnext _

theorem parseUintBuf_eq (b : List Byte) :
    parseUintBuf b =
      if b = [] then .ok (-1, 0, some .emptyInteger) else .ok (uintRun b 0 0) := by
  by_cases hb : b = []
  · subst hb
    simp [parseUintBuf]
  · have hl : ¬ ((b.length : Int) = 0) := by
      simpa using hb
    have := parseUintLoop_eq_uintRun b [] 0 b.length (le_refl _)
    simp only [List.nil_append, List.length_nil, Nat.cast_zero] at this
    simp only [parseUintBuf, hl, if_false, hb, this]

theorem digit_offset (c : Byte) :
    ((c.val + 256 - 48) % 256 > 9) ↔ isDigit c = false := by
  have hc := c.isLt
  simp only [isDigit, decide_eq_false_iff_not, not_and, not_le]
  omega

theorem digit_value {c : Byte} (h : isDigit c = true) :
    (((c.val + 256 - 48) % 256 : Nat) : Int) = (c.val : Int) - 48 := by
  have hc := c.isLt
  simp only [isDigit, decide_eq_true_eq] at h
  omega

theorem wrapInt_bounds (x : Int) : -(2 ^ 63) ≤ wrapInt x ∧ wrapInt x < 2 ^ 63 := by
  unfold wrapInt
  omega

theorem wrapInt_of_fits {x : Int} (h1 : -(2 ^ 63) ≤ x) (h2 : x < 2 ^ 63) : wrapInt x = x := by
  unfold wrapInt
  omega

theorem isDigit_bounds {c : Byte} (h : isDigit c = true) : 48 ≤ c.val ∧ c.val ≤ 57 := by
  simpa [isDigit] using h

theorem decAcc_takeWhile_ge (l : List Byte) : ∀ w : Int, 0 ≤ w →
    w ≤ decAcc w (l.takeWhile isDigit) := by
  induction l with
  | nil => intro w _; simp [decAcc]
  | cons c cs ih =>
    intro w hw
    by_cases hd : isDigit c = true
    · have hb := isDigit_bounds hd
      have := ih (10 * w + ((c.val : Int) - 48)) (by omega)
      simp only [decAcc, List.takeWhile_cons, hd, if_true, List.foldl_cons] at this ⊢
      omega
    · simp [decAcc, List.takeWhile_cons, hd]

theorem decAcc_eq_foldl (l : List Byte) : ∀ w : Nat,
    decAcc (w : Int) (l.takeWhile isDigit) =
      (((l.takeWhile isDigit).foldl (fun acc c => 10 * acc + (c.val - 48)) w : Nat) : Int) := by
  induction l with
  | nil => intro w; simp [decAcc]
  | cons c cs ih =>
    intro w
    by_cases hd : isDigit c = true
    · have hb := isDigit_bounds hd
      have := ih (10 * w + (c.val - 48))
      have hcast : ((10 * w + (c.val - 48) : Nat) : Int) = 10 * (w : Int) + ((c.val : Int) - 48) := by
        omega
      rw [hcast] at this
      simp only [decAcc, List.takeWhile_cons, hd, if_true, List.foldl_cons] at this ⊢
      exact this
    · simp [decAcc, List.takeWhile_cons, hd]

theorem decAcc_eq_decimalValue (l : List Byte) :
    decAcc 0 (l.takeWhile isDigit) = (decimalValue (l.takeWhile isDigit) : Int) := by
  have := decAcc_eq_foldl l 0
  simpa [decimalValue] using this

theorem uintRun_sound (suf : List Byte) : ∀ (i v r n : Int), 0 ≤ i → 0 ≤ v →
    uintRun suf i v = (r, n, none) →
    v ≤ r ∧ n = i + ((suf.takeWhile isDigit).length : Int) ∧
      (i = 0 → suf ≠ [] → suf.takeWhile isDigit ≠ []) ∧
      (r < 2 ^ 59 → r = decAcc v (suf.takeWhile isDigit)) := by
  induction suf with
  | nil =>
    intro i v r n _ _ h
    simp only [uintRun, Prod.mk.injEq, and_true] at h
    obtain ⟨h1, h2⟩ := h
    subst h1 h2
    simp [decAcc]
  | cons c cs ih =>
    intro i v r n hi hv h
    by_cases hd : isDigit c = true
    · have hk : ¬ ((c.val + 256 - 48) % 256 > 9) := by
        rw [digit_offset]
        simp [hd]
      have hb := isDigit_bounds hd
      rw [uintRun, if_neg hk, digit_value hd] at h
      simp only at h
      split_ifs at h with hov
      · simp at h
      · have hwb := wrapInt_bounds (wrapInt (10 * v) + ((c.val : Int) - 48))
        obtain ⟨h1, h2, _, h4⟩ := ih _ _ r n (by omega) (by omega) h
        refine ⟨by omega, ?_, ?_, ?_⟩
        · simp only [List.takeWhile_cons, hd, if_true, List.length_cons]
          push_cast
          omega
        · intro _ _
          simp [List.takeWhile_cons, hd]
        · intro hr
          have hfit : wrapInt (wrapInt (10 * v) + ((c.val : Int) - 48)) =
              10 * v + ((c.val : Int) - 48) := by
            have e1 : wrapInt (10 * v) = 10 * v := wrapInt_of_fits (by omega) (by omega)
            rw [e1]
            exact wrapInt_of_fits (by omega) (by omega)
          rw [hfit] at h4
          simp only [List.takeWhile_cons, hd, if_true, decAcc, List.foldl_cons]
          exact h4 hr
    · have hk : (c.val + 256 - 48) % 256 > 9 := by
        rw [digit_offset]
        simpa using hd
      rw [uintRun, if_pos hk] at h
      split_ifs at h with h0
      · simp at h
      · simp only [Prod.mk.injEq, and_true] at h
        obtain ⟨h1, h2⟩ := h
        subst h1 h2
        simp [List.takeWhile_cons, hd, decAcc, h0]

theorem uintRun_exact (suf : List Byte) : ∀ (i v : Int), 0 ≤ i → 0 ≤ v →
    decAcc v (suf.takeWhile isDigit) ≤ maxInt →
    (i = 0 → suf.takeWhile isDigit ≠ []) →
    uintRun suf i v =
      (decAcc v (suf.takeWhile isDigit), i + ((suf.takeWhile isDigit).length : Int), none) := by
  induction suf with
  | nil =>
    intro i v _ _ _ _
    simp [uintRun, decAcc]
  | cons c cs ih =>
    intro i v hi hv hfit hne
    by_cases hd : isDigit c = true
    · have hk : ¬ ((c.val + 256 - 48) % 256 > 9) := by
        rw [digit_offset]
        simp [hd]
      have hb := isDigit_bounds hd
      have hrun : (c :: cs).takeWhile isDigit = c :: cs.takeWhile isDigit := by
        simp [List.takeWhile_cons, hd]
      rw [hrun] at hfit ⊢
      have hacc : decAcc v (c :: cs.takeWhile isDigit) =
          decAcc (10 * v + ((c.val : Int) - 48)) (cs.takeWhile isDigit) := by
        simp [decAcc]
      rw [hacc] at hfit ⊢
      have hge := decAcc_takeWhile_ge cs (10 * v + ((c.val : Int) - 48)) (by omega)
      have hmax : maxInt = 2 ^ 63 - 1 := rfl
      have hnew : wrapInt (wrapInt (10 * v) + ((c.val : Int) - 48)) =
          10 * v + ((c.val : Int) - 48) := by
        have e1 : wrapInt (10 * v) = 10 * v := wrapInt_of_fits (by omega) (by omega)
        rw [e1]
        exact wrapInt_of_fits (by omega) (by omega)
      rw [uintRun, if_neg hk, digit_value hd]
      simp only [hnew]
      have hnov : ¬ (10 * v + ((c.val : Int) - 48) < v) := by omega
      rw [if_neg hnov, ih _ _ (by omega) (by omega) hfit (by omega)]
      simp only [List.length_cons, Prod.mk.injEq, and_true, true_and]
      push_cast
      omega
    · have hk : (c.val + 256 - 48) % 256 > 9 := by
        rw [digit_offset]
        simpa using hd
      have hrun : (c :: cs).takeWhile isDigit = [] := by
        simp [List.takeWhile_cons, hd]
      rw [hrun] at hne ⊢
      have hi0 : ¬ i = 0 := fun e => hne e rfl
      rw [uintRun, if_pos hk, if_neg hi0]
      simp [decAcc]

/-! ## `parseFirstLine` -/

theorem parseFirstLine_eq (buf : List Byte) :
    parseFirstLine buf =
      match firstLineLoop (buf.length + 1) [] buf with
      | .error f => .error f
      | .ok (b, bNext, err) =>
        if err ≠ none then .ok (0, err) else parseStatus buf b bNext := by
  unfold parseFirstLine parseStatus
  cases firstLineLoop (buf.length + 1) [] buf with
  | error f => rfl
  | ok r =>
    obtain ⟨b, bNext, err⟩ := r
    rfl

theorem afterFirstSpace_split {pre : List Byte} (after : List Byte) (h : SP ∉ pre) :
    afterFirstSpace (pre ++ SP :: after) = after := by
  induction pre with
  | nil => simp [afterFirstSpace, List.dropWhile_cons]
  | cons c cs ih =>
    simp only [List.mem_cons, not_or] at h
    have hc : ¬ c = SP := fun e => h.1 e.symm
    have := ih h.2
    simp only [afterFirstSpace, List.cons_append, List.dropWhile_cons, ne_eq, hc,
      not_false_eq_true, decide_True, if_true] at this ⊢
    exact this

theorem statusLineOk_noSpace {b : List Byte} (h : SP ∉ b) : statusLineOk b = false := by
  simp [statusLineOk, h]

/-- Unfolding of `statusLineOk` on a line split at its first space. -/
theorem statusLineOk_split {pre : List Byte} (after : List Byte) (h : SP ∉ pre) :
    statusLineOk (pre ++ SP :: after) =
      (!(after.takeWhile isDigit).isEmpty &&
        (decide (decimalValue (after.takeWhile isDigit) = 200) ||
          decide (decimalValue (after.takeWhile isDigit) = 204)) &&
        ((after.dropWhile isDigit).isEmpty ||
          decide ((after.dropWhile isDigit).head? = some SP))) := by
  simp [statusLineOk, afterFirstSpace_split after h]

theorem parseStatus_noSpace (buf : List Byte) {b : List Byte} (bNext : List Byte) (h : SP ∉ b) :
    parseStatus buf b bNext = .ok (0, some (.noWhitespace buf)) := by
  simp [parseStatus, indexByte_of_not_mem h, pure, Except.pure]

theorem uintRun_status_iff {after : List Byte} {r n : Int} (hne : after ≠ [])
    (hrun : uintRun after 0 0 = (r, n, none)) :
    (r = 204 ∨ r = 200) ↔
      (decimalValue (after.takeWhile isDigit) = 200 ∨
        decimalValue (after.takeWhile isDigit) = 204) := by
  obtain ⟨_, _, hrunne, hval⟩ := uintRun_sound after 0 0 r n (le_refl _) (le_refl _) hrun
  have hdv := decAcc_eq_decimalValue after
  constructor
  · intro hr
    have := hval (by rcases hr with h | h <;> rw [h] <;> norm_num)
    rw [hdv] at this
    omega
  · intro hv
    have hfit : decAcc 0 (after.takeWhile isDigit) ≤ maxInt := by
      rw [hdv]
      have : maxInt = 2 ^ 63 - 1 := rfl
      omega
    have := uintRun_exact after 0 0 (le_refl _) (le_refl _) hfit (fun _ => hrunne rfl hne)
    rw [hrun, hdv] at this
    simp only [Prod.mk.injEq] at this
    omega

theorem uintRun_error_not_status {after : List Byte} {r n : Int} {e : GoError}
    (hrun : uintRun after 0 0 = (r, n, some e)) :
    ¬ (after.takeWhile isDigit ≠ [] ∧
      (decimalValue (after.takeWhile isDigit) = 200 ∨
        decimalValue (after.takeWhile isDigit) = 204)) := by
  rintro ⟨hrunne, hv⟩
  have hdv := decAcc_eq_decimalValue after
  have hfit : decAcc 0 (after.takeWhile isDigit) ≤ maxInt := by
    rw [hdv]
    have : maxInt = 2 ^ 63 - 1 := rfl
    omega
  have := uintRun_exact after 0 0 (le_refl _) (le_refl _) hfit (fun _ => hrunne)
  rw [hrun] at this
  simp at this

theorem parseStatus_spec (buf b bNext : List Byte) :
    (statusLineOk b = true ∧
      parseStatus buf b bNext = .ok ((buf.length : Int) - (bNext.length : Int), none)) ∨
    (statusLineOk b = false ∧ ∃ e, parseStatus buf b bNext = .ok (0, some e)) := by
  by_cases hm : SP ∈ b
  · obtain ⟨pre, after, hb, hpre⟩ := List.eq_append_cons_of_mem hm
    subst hb
    rw [statusLineOk_split after hpre]
    have hidx : indexByte (pre ++ SP :: after) SP = pre.length := indexByte_append_cons after hpre
    have hnn : ¬ ((pre.length : Int) < 0) := by omega
    have hslice : goSlice (pre ++ SP :: after) ((pre.length : Int) + 1)
        ((pre ++ SP :: after).length) = .ok after :=
      goSlice_back_eq _ (pre ++ [SP]) after _ _ (by simp) (by simp) rfl
    by_cases hne : after = []
    · subst hne
      right
      refine ⟨by simp, .badStatusCode .emptyInteger buf, ?_⟩
      simp only [parseStatus, hidx, hnn, if_false, hslice, parseUintBuf_eq, if_true,
        bind, Except.bind, pure, Except.pure]
      simp
    · rcases hrun : uintRun after 0 0 with ⟨r, n, e⟩
      cases e with
      | some e =>
        right
        have hno := uintRun_error_not_status hrun
        refine ⟨?_, .badStatusCode e buf, ?_⟩
        · by_contra hc
          simp only [Bool.not_eq_false, Bool.and_eq_true, Bool.or_eq_true, decide_eq_true_eq,
            Bool.not_eq_true', List.isEmpty_eq_false] at hc
          exact hno ⟨hc.1.1, hc.1.2⟩
        · simp only [parseStatus, hidx, hnn, if_false, hslice, parseUintBuf_eq, if_neg hne, hrun,
            bind, Except.bind, pure, Except.pure]
          simp
      | none =>
        obtain ⟨_, hn, hrunne, _⟩ := uintRun_sound after 0 0 r n (le_refl _) (le_refl _) hrun
        have hiff := uintRun_status_iff hne hrun
        have hsplit : after.takeWhile isDigit ++ after.dropWhile isDigit = after :=
          List.takeWhile_append_dropWhile isDigit after
        have hrne : (after.takeWhile isDigit).isEmpty = false := by
          cases hs : after.takeWhile isDigit with
          | nil => exact absurd hs (hrunne rfl hne)
          | cons _ _ => rfl
        simp only [zero_add] at hn
        cases htail : after.dropWhile isDigit with
        | nil =>
          have hlen : ¬ ((after.length : Int) > n) := by
            rw [htail, List.append_nil] at hsplit
            rw [hn, hsplit]
            omega
          have hps : parseStatus buf (pre ++ SP :: after) bNext =
              if r = 204 ∨ r = 200 then .ok ((buf.length : Int) - (bNext.length : Int), none)
              else .ok (0, some .wrongStatusCode) := by
            simp only [parseStatus, hidx, hnn, if_false, hslice, parseUintBuf_eq, if_neg hne, hrun,
              hlen, bind, Except.bind, pure, Except.pure]
            simp
          rw [hps]
          by_cases hr : r = 204 ∨ r = 200
          · left
            have hv := hiff.mp hr
            refine ⟨?_, by rw [if_pos hr]⟩
            simp [hrne, hv]
          · right
            have hv : ¬ _ := fun h => hr (hiff.mpr h)
            refine ⟨?_, .wrongStatusCode, by rw [if_neg hr]⟩
            simp only [not_or] at hv
            simp [hrne, hv.1, hv.2]
        | cons c t =>
          have hafter : after = after.takeWhile isDigit ++ c :: t := by
            rw [← htail, hsplit]
          have hlen : (after.length : Int) > n := by
            rw [hn]
            conv_lhs => rw [hafter]
            simp only [List.length_append, List.length_cons]
            push_cast
            omega
          have hget : goIndex after n = .ok c :=
            goIndex_eq after _ c t n hafter hn
          have hps : parseStatus buf (pre ++ SP :: after) bNext =
              if c ≠ SP then .ok (0, some (.unexpectedChar buf))
              else if r = 204 ∨ r = 200 then .ok ((buf.length : Int) - (bNext.length : Int), none)
              else .ok (0, some .wrongStatusCode) := by
            simp only [parseStatus, hidx, hnn, if_false, hslice, parseUintBuf_eq, if_neg hne, hrun,
              hlen, hget, bind, Except.bind, pure, Except.pure]
            by_cases hc : c = SP <;> simp [hc]
          rw [hps]
          by_cases hc : c = SP
          · by_cases hr : r = 204 ∨ r = 200
            · left
              have hv := hiff.mp hr
              refine ⟨?_, by simp [hc, hr]⟩
              simp [hrne, hv, hc]
            · right
              have hv : ¬ _ := fun h => hr (hiff.mpr h)
              refine ⟨?_, .wrongStatusCode, by simp [hc, hr]⟩
              simp only [not_or] at hv
              simp [hrne, hv.1, hv.2]
          · right
            refine ⟨?_, .unexpectedChar buf, by simp [hc]⟩
            simp [hrne, hc]
  · right
    exact ⟨statusLineOk_noSpace hm, _, parseStatus_noSpace buf bNext hm⟩

theorem firstLineLoop_fuel (n : Nat) : ∀ (bNext : List Byte) (f1 f2 : Nat),
    bNext.length ≤ n → bNext.length < f1 → bNext.length < f2 →
    firstLineLoop f1 [] bNext = firstLineLoop f2 [] bNext := by
  induction n with
  | zero =>
    intro bNext f1 f2 hn h1 h2
    have hnil : bNext = [] := List.length_eq_zero.mp (Nat.le_zero.mp hn)
    subst hnil
    obtain ⟨g1, rfl⟩ : ∃ g, f1 = g + 1 := ⟨f1 - 1, by simp at h1; omega⟩
    obtain ⟨g2, rfl⟩ : ∃ g, f2 = g + 1 := ⟨f2 - 1, by simp at h2; omega⟩
    rw [firstLineLoop_noLF g1 (by simp), firstLineLoop_noLF g2 (by simp)]
  | succ n ih =>
    intro bNext f1 f2 hn h1 h2
    obtain ⟨g1, rfl⟩ : ∃ g, f1 = g + 1 := ⟨f1 - 1, by omega⟩
    obtain ⟨g2, rfl⟩ : ∃ g, f2 = g + 1 := ⟨f2 - 1, by omega⟩
    by_cases hm : LF ∈ bNext
    · obtain ⟨raw, rest, hb, hraw⟩ := List.eq_append_cons_of_mem hm
      subst hb
      have hlen : rest.length ≤ n ∧ rest.length < g1 ∧ rest.length < g2 := by
        simp only [List.length_append, List.length_cons] at hn h1 h2
        omega
      rw [firstLineLoop_split g1 rest hraw, firstLineLoop_split g2 rest hraw]
      by_cases he : stripCR raw = []
      · rw [he]
        exact ih rest g1 g2 hlen.1 hlen.2.1 hlen.2.2
      · rw [firstLineLoop_nonempty g1 rest he, firstLineLoop_nonempty g2 rest he]
    · rw [firstLineLoop_noLF g1 hm, firstLineLoop_noLF g2 hm]

/-- The blank-line loop started on a buffer that begins with a blank line does
what it does on the rest of the buffer. -/
theorem firstLineLoop_skip {raw : List Byte} (buf : List Byte) (h : LF ∉ raw)
    (he : stripCR raw = []) :
    firstLineLoop ((raw ++ LF :: buf).length + 1) [] (raw ++ LF :: buf) =
      firstLineLoop (buf.length + 1) [] buf := by
  rw [firstLineLoop_split _ buf h, he]
  apply firstLineLoop_fuel buf.length buf _ _ (le_refl _)
  · simp only [List.length_append, List.length_cons]
    omega
  · omega

theorem parseFirstLine_of_loop_err {buf b bNext : List Byte} {e : GoError}
    (h : firstLineLoop (buf.length + 1) [] buf = .ok (b, bNext, some e)) :
    parseFirstLine buf = .ok (0, some e) := by
  rw [parseFirstLine_eq, h]
  simp

theorem parseFirstLine_of_loop_line {buf b bNext : List Byte}
    (h : firstLineLoop (buf.length + 1) [] buf = .ok (b, bNext, none)) :
    (statusLineOk b = true ∧
      parseFirstLine buf = .ok ((buf.length : Int) - (bNext.length : Int), none)) ∨
    (statusLineOk b = false ∧ ∃ e, parseFirstLine buf = .ok (0, some e)) := by
  rw [parseFirstLine_eq, h]
  simpa using parseStatus_spec buf b bNext

/-- The behaviour of `parseFirstLine` on every buffer. -/
theorem parseFirstLine_spec (buf : List Byte) :
    (firstNonEmptyLine buf = none ∧ parseFirstLine buf = .ok (0, some .needMoreData)) ∨
    (∃ p raw rest, buf = p ++ raw ++ LF :: rest ∧ BlankLines p ∧ LF ∉ raw ∧ stripCR raw ≠ [] ∧
      firstNonEmptyLine buf = some (stripCR raw) ∧
      ((statusLineOk (stripCR raw) = true ∧
          parseFirstLine buf = .ok ((buf.length : Int) - (rest.length : Int), none)) ∨
        (statusLineOk (stripCR raw) = false ∧ ∃ e, parseFirstLine buf = .ok (0, some e)))) := by
  rcases firstLineLoop_spec_buf buf with ⟨hr, hnone⟩ | ⟨p, raw, rest, hb, hp, hraw, hne, hr, hsome⟩
  · exact Or.inl ⟨hnone, parseFirstLine_of_loop_err hr⟩
  · exact Or.inr ⟨p, raw, rest, hb, hp, hraw, hne, hsome, parseFirstLine_of_loop_line hr⟩

theorem parseFirstLine_returns (buf : List Byte) :
    (∃ n, parseFirstLine buf = .ok (n, none)) ∨ (∃ e, parseFirstLine buf = .ok (0, some e)) := by
  rcases parseFirstLine_spec buf with ⟨_, hr⟩ | ⟨_, _, _, _, _, _, _, _, hres⟩
  · exact Or.inr ⟨_, hr⟩
  · rcases hres with ⟨_, hr⟩ | ⟨_, e, hr⟩
    · exact Or.inl ⟨_, hr⟩
    · exact Or.inr ⟨e, hr⟩

theorem parseFirstLine_noLF {buf : List Byte} (h : LF ∉ buf) :
    parseFirstLine buf = .ok (0, some .needMoreData) :=
  parseFirstLine_of_loop_err (firstLineLoop_noLF buf.length h)

theorem specAccepts_of_first {buf line : List Byte} (h : firstNonEmptyLine buf = some line) :
    specAccepts buf = statusLineOk line := by
  simp [specAccepts, h]

theorem specAccepts_of_none {buf : List Byte} (h : firstNonEmptyLine buf = none) :
    specAccepts buf = false := by
  simp [specAccepts, h]

/-- C1: `parseFirstLine` succeeds exactly on the buffers whose first non-empty
line (LF-terminated, one trailing CR stripped) contains a space followed by a
non-empty digit run of exact value 200 or 204 that ends the line or is followed
by a space (`specAccepts`); on every buffer it returns either a success or
`(0, error)`, so every other buffer is rejected with an error. -/
theorem parseFirstLine_accepts_iff_spec (buf : List Byte) :
    ((∃ n, parseFirstLine buf = .ok (n, none)) ↔ specAccepts buf = true) ∧
    ((∃ n, parseFirstLine buf = .ok (n, none)) ∨ (∃ e, parseFirstLine buf = .ok (0, some e))) := by
  rcases parseFirstLine_spec buf with ⟨hnone, hr⟩ | ⟨p, raw, rest, _, _, _, _, hsome, hres⟩
  · rw [specAccepts_of_none hnone, hr]
    simp
  · rw [specAccepts_of_first hsome]
    rcases hres with ⟨hok, hr⟩ | ⟨hok, e, hr⟩
    · rw [hok, hr]
      simp
    · rw [hok, hr]
      simp

theorem refParseUint_none_iff (b : List Byte) :
    refParseUint b = none ↔ (b = [] ∨ ∃ c cs, b = c :: cs ∧ ¬ (48 ≤ c.val ∧ c.val ≤ 57)) := by
  cases b with
  | nil => simp [refParseUint]
  | cons c cs =>
    by_cases hd : isDigit c = true
    · have hb := isDigit_bounds hd
      simp [refParseUint, List.takeWhile_cons, hd]
      omega
    · have hb : ¬ (48 ≤ c.val ∧ c.val ≤ 57) := by
        simpa [isDigit] using hd
      simp only [refParseUint, List.takeWhile_cons, hd]
      simp
      omega

theorem takeWhile_length_le (b : List Byte) : (b.takeWhile isDigit).length ≤ b.length := by
  have h := List.takeWhile_append_dropWhile isDigit b
  have := congrArg List.length h
  simp only [List.length_append] at this
  omega

/-- C3: `parseUintBuf` agrees with the reference decimal parser `refParseUint`
wherever the value fits in an `int`: the reference finds no number exactly when
`b` is empty or its first byte is not in `'0'..'9'`, and then `parseUintBuf`
returns an error; when the reference finds the value `v` and the length `n` of
the maximal leading digit run and `v ≤ maxInt`, `parseUintBuf` returns
`(v, n)` with no error, and `1 ≤ n ≤ len(b)`. -/
theorem parseUintBuf_refines_reference (b : List Byte) :
    (refParseUint b = none ↔ (b = [] ∨ ∃ c cs, b = c :: cs ∧ ¬ (48 ≤ c.val ∧ c.val ≤ 57))) ∧
    (refParseUint b = none → ∃ e, parseUintBuf b = .ok (-1, 0, some e)) ∧
    (∀ v n, refParseUint b = some (v, n) → (v : Int) ≤ maxInt →
      parseUintBuf b = .ok ((v : Int), (n : Int), none) ∧ 1 ≤ n ∧ n ≤ b.length) := by
  refine ⟨refParseUint_none_iff b, ?_, ?_⟩
  · intro hnone
    rcases (refParseUint_none_iff b).mp hnone with hb | ⟨c, cs, hb, hc⟩
    · subst hb
      exact ⟨.emptyInteger, by simp [parseUintBuf]⟩
    · subst hb
      have hk : (c.val + 256 - 48) % 256 > 9 := by
        have := c.isLt
        omega
      refine ⟨.unexpectedFirstChar, ?_⟩
      rw [parseUintBuf_eq, if_neg (by simp), uintRun, if_pos hk, if_pos rfl]
  · intro v n href hfit
    have hrun : (b.takeWhile isDigit).isEmpty = false := by
      by_contra hc
      simp only [Bool.not_eq_false] at hc
      simp [refParseUint, hc] at href
    simp only [refParseUint, hrun, Bool.false_eq_true, if_false, Option.some.injEq,
      Prod.mk.injEq] at href
    obtain ⟨hv, hn⟩ := href
    have hne : b.takeWhile isDigit ≠ [] := by
      intro h
      rw [h] at hrun
      simp at hrun
    have hbne : b ≠ [] := by
      intro h
      subst h
      simp at hne
    have hdv := decAcc_eq_decimalValue b
    have hexact := uintRun_exact b 0 0 (le_refl _) (le_refl _) (by rw [hdv, hv]; exact hfit)
      (fun _ => hne)
    rw [hdv, hv, hn, zero_add] at hexact
    refine ⟨by rw [parseUintBuf_eq, if_neg hbne, hexact], ?_, ?_⟩
    · rw [← hn]
      exact List.length_pos.mpr hne
    · rw [← hn]
      exact takeWhile_length_le b

/-- Witness for C3: the reference value 204 of `"204 No"` fits and is returned
with length 3, and the empty string is an error. -/
theorem parseUintBuf_refines_reference_witness :
    (parseUintBuf (bytesOf "204 No") = .ok (204, 3, none) ∧ 1 ≤ 3 ∧ 3 ≤ (bytesOf "204 No").length) ∧
    (∃ e, parseUintBuf (bytesOf "") = .ok (-1, 0, some e)) :=
  ⟨(parseUintBuf_refines_reference (bytesOf "204 No")).2.2 204 3 (by decide) (by decide),
   (parseUintBuf_refines_reference (bytesOf "")).2.1 (by decide)⟩

theorem nextLine_total (b : List Byte) : ∃ r, nextLine b = .ok r := by
  by_cases hm : LF ∈ b
  · obtain ⟨raw, rest, hb, hraw⟩ := List.eq_append_cons_of_mem hm
    subst hb
    exact ⟨_, nextLine_split rest hraw⟩
  · exact ⟨_, nextLine_noLF hm⟩

theorem nextLine_shortens {b line rest : List Byte} (h : nextLine b = .ok (line, rest, none)) :
    rest.length < b.length := by
  by_cases hm : LF ∈ b
  · obtain ⟨raw, rest2, hb, hraw⟩ := List.eq_append_cons_of_mem hm
    subst hb
    rw [nextLine_split rest2 hraw] at h
    simp only [Except.ok.injEq, Prod.mk.injEq, and_true] at h
    rw [← h.2]
    simp only [List.length_append, List.length_cons]
    omega
  · rw [nextLine_noLF hm] at h
    simp at h

theorem parseUintBuf_total (b : List Byte) : ∃ r, parseUintBuf b = .ok r := by
  rw [parseUintBuf_eq]
  split_ifs
  · exact ⟨_, rfl⟩
  · exact ⟨_, rfl⟩

/-- C10: `parseFirstLine` returns on every buffer without an index or slice
fault and without exhausting its loop budget, and so do `nextLine` and
`parseUintBuf` on every input; a successful `nextLine` leaves a strictly shorter
remainder; on success the result `n` of `parseFirstLine` satisfies
`0 < n ≤ len(buf)`, `buf[n-1]` is an LF, and the first `n` bytes are blank lines
followed by the accepted status line and that LF. -/
theorem parseFirstLine_total_safe (buf b : List Byte) :
    (∃ n e, parseFirstLine buf = .ok (n, e)) ∧
    (∃ r, nextLine b = .ok r) ∧
    (∀ line rest, nextLine b = .ok (line, rest, none) → rest.length < b.length) ∧
    (∃ r, parseUintBuf b = .ok r) ∧
    (∀ n, parseFirstLine buf = .ok (n, none) →
      0 < n ∧ n ≤ buf.length ∧ goIndex buf (n - 1) = .ok LF ∧
      ∃ p raw, BlankLines p ∧ LF ∉ raw ∧ statusLineOk (stripCR raw) = true ∧
        buf.take n.toNat = p ++ raw ++ [LF]) := by
  refine ⟨?_, nextLine_total b, fun _ _ h => nextLine_shortens h, parseUintBuf_total b, ?_⟩
  · rcases parseFirstLine_returns buf with ⟨n, h⟩ | ⟨e, h⟩
    · exact ⟨n, none, h⟩
    · exact ⟨0, some e, h⟩
  · intro n hn
    rcases parseFirstLine_spec buf with ⟨_, hr⟩ | ⟨p, raw, rest, hb, hp, hraw, _, _, hres⟩
    · rw [hr] at hn
      simp at hn
    · rcases hres with ⟨hok, hr⟩ | ⟨_, e, hr⟩
      · rw [hr] at hn
        simp only [Except.ok.injEq, Prod.mk.injEq, and_true] at hn
        have hlen : buf.length = (p ++ raw).length + 1 + rest.length := by
          rw [hb]
          simp only [List.length_append, List.length_cons]
          omega
        have hnval : n = (((p ++ raw).length + 1 : Nat) : Int) := by
          rw [← hn, hlen]
          push_cast
          omega
        refine ⟨by omega, by omega, ?_, p, raw, hp, hraw, hok, ?_⟩
        · exact goIndex_eq buf (p ++ raw) LF rest _ hb (by rw [hnval]; push_cast; omega)
        · rw [hnval, Int.toNat_ofNat, hb]
          have : p ++ raw ++ LF :: rest = (p ++ raw ++ [LF]) ++ rest := by simp
          rw [this, List.take_left' (by simp; omega)]
      · rw [hr] at hn
        simp at hn

/-- Witness for C10 on the status line `"HTTP/1.1 204 No Content\r\n"`. -/
theorem parseFirstLine_total_safe_witness :
    (0 : Int) < 25 ∧ (25 : Int) ≤ (bytesOf "HTTP/1.1 204 No Content\r\n").length ∧
      goIndex (bytesOf "HTTP/1.1 204 No Content\r\n") (25 - 1) = .ok LF ∧
      ∃ p raw, BlankLines p ∧ LF ∉ raw ∧ statusLineOk (stripCR raw) = true ∧
        (bytesOf "HTTP/1.1 204 No Content\r\n").take (25 : Int).toNat = p ++ raw ++ [LF] :=
  (parseFirstLine_total_safe (bytesOf "HTTP/1.1 204 No Content\r\n") []).2.2.2.2 25 (by decide)

theorem parseFirstLine_skip_line {raw : List Byte} (buf : List Byte) (h : LF ∉ raw)
    (he : stripCR raw = []) :
    (∀ n, parseFirstLine buf = .ok (n, none) →
      parseFirstLine (raw ++ LF :: buf) = .ok (((raw.length + 1 : Nat) : Int) + n, none)) ∧
    (∀ m, parseFirstLine (raw ++ LF :: buf) = .ok (m, none) →
      ∃ n, parseFirstLine buf = .ok (n, none)) := by
  have hskip := firstLineLoop_skip buf h he
  rcases hloop : firstLineLoop (buf.length + 1) [] buf with f | ⟨b, bNext, err⟩
  · rcases firstLineLoop_spec_buf buf with ⟨hr, _⟩ | ⟨_, _, _, _, _, _, _, hr, _⟩ <;>
      rw [hloop] at hr <;> simp at hr
  · rw [hloop] at hskip
    cases err with
    | some e =>
      have h1 := parseFirstLine_of_loop_err hloop
      have h2 := parseFirstLine_of_loop_err hskip
      rw [h1, h2]
      simp
    | none =>
      rcases parseFirstLine_of_loop_line hloop with ⟨hok, h1⟩ | ⟨hok, e1, h1⟩ <;>
        rcases parseFirstLine_of_loop_line hskip with ⟨hok2, h2⟩ | ⟨hok2, e2, h2⟩
      · rw [h1, h2]
        refine ⟨?_, fun _ _ => ⟨_, rfl⟩⟩
        intro n hn
        simp only [Except.ok.injEq, Prod.mk.injEq, and_true] at hn
        rw [← hn]
        simp only [List.length_append, List.length_cons]
        push_cast
        simp only [Except.ok.injEq, Prod.mk.injEq, and_true]
        omega
      · rw [hok] at hok2
        simp at hok2
      · rw [hok] at hok2
        simp at hok2
      · rw [h1, h2]
        simp

/-- C4: leading blank lines are skipped.  For every concatenation `p` of empty
lines (each `"\n"` or `"\r\n"`) and every buffer `buf`, `parseFirstLine (p ++ buf)`
succeeds exactly when `parseFirstLine buf` does, and then its result is
`len(p)` plus the result for `buf`. -/
theorem parseFirstLine_skips_blank_lines (p buf : List Byte) (hp : BlankLines p) :
    ((∃ m, parseFirstLine (p ++ buf) = .ok (m, none)) ↔ (∃ n, parseFirstLine buf = .ok (n, none))) ∧
    (∀ n, parseFirstLine buf = .ok (n, none) →
      parseFirstLine (p ++ buf) = .ok ((p.length : Int) + n, none)) := by
  induction hp with
  | nil =>
    simp
  | @lf q _ ih =>
    obtain ⟨ihiff, ihval⟩ := ih
    have hstep := @parseFirstLine_skip_line [] (q ++ buf) (by simp) stripCR_nil
    simp only [List.nil_append, List.length_nil, zero_add, Nat.cast_one] at hstep
    refine ⟨⟨fun ⟨m, hm⟩ => ihiff.mp (hstep.2 m hm), fun ⟨n, hn⟩ => ?_⟩, fun n hn => ?_⟩
    · exact ⟨_, hstep.1 _ (ihval n hn)⟩
    · have := hstep.1 _ (ihval n hn)
      rw [List.cons_append, this, List.length_cons]
      push_cast
      simp only [Except.ok.injEq, Prod.mk.injEq, and_true]
      omega
  | @crlf q _ ih =>
    obtain ⟨ihiff, ihval⟩ := ih
    have hstep := @parseFirstLine_skip_line [CR] (q ++ buf) (by decide)
      (by decide)
    simp only [List.singleton_append, List.length_singleton] at hstep
    refine ⟨⟨fun ⟨m, hm⟩ => ihiff.mp (hstep.2 m hm), fun ⟨n, hn⟩ => ?_⟩, fun n hn => ?_⟩
    · exact ⟨_, hstep.1 _ (ihval n hn)⟩
    · have := hstep.1 _ (ihval n hn)
      rw [List.cons_append, List.cons_append, this, List.length_cons, List.length_cons]
      push_cast
      simp only [Except.ok.injEq, Prod.mk.injEq, and_true]
      omega

/-- Witness for C4: two blank lines before `"HTTP/1.1 200 OK\r\n"`. -/
theorem parseFirstLine_skips_blank_lines_witness :
    BlankLines (bytesOf "\r\n\n") ∧
      parseFirstLine (bytesOf "\r\n\n" ++ bytesOf "HTTP/1.1 200 OK\r\n") =
        .ok (((bytesOf "\r\n\n").length : Int) + 17, none) :=
  ⟨BlankLines.crlf (BlankLines.lf BlankLines.nil),
   (parseFirstLine_skips_blank_lines (bytesOf "\r\n\n") (bytesOf "HTTP/1.1 200 OK\r\n")
      (BlankLines.crlf (BlankLines.lf BlankLines.nil))).2 17 (by decide)⟩

theorem pingInternal_fst (env : ConnEnv) :
    (pingInternal env).1 =
      if env.writeErr ≠ none then .ok (0, env.writeErr)
      else if env.readErr ≠ none ∧ env.readErr ≠ some GoError.eof then .ok (0, env.readErr)
      else match parseFirstLine (probeBuf env) with
        | .error f => .error f
        | .ok (_, some e) => .ok (0, some e)
        | .ok (_, none) => .ok (milliseconds (timeSub env.nowEnd env.nowStart), none) := by
  unfold pingInternal pingInternalBody probeBuf
  dsimp only
  by_cases hw : env.writeErr ≠ none
  · rw [if_pos hw, if_pos hw]
  · rw [if_neg hw, if_neg hw]
    by_cases hr : env.readErr ≠ none ∧ env.readErr ≠ some GoError.eof
    · rw [if_pos hr, if_pos hr]
    · rw [if_neg hr, if_neg hr]
      cases parseFirstLine (fillBuf (List.replicate 128 0) env.readData) with
      | error f => rfl
      | ok r =>
        obtain ⟨n, e⟩ := r
        cases e <;> rfl

theorem pingInternal_snd (env : ConnEnv) :
    (pingInternal env).2 =
      [ConnEvent.setDeadline (env.nowDeadline + tcpTimeout), ConnEvent.write httpRequest] ++
        (if env.writeErr ≠ none then [] else [ConnEvent.read 128]) ++ [ConnEvent.close] := by
  unfold pingInternal pingInternalBody
  dsimp only
  by_cases hw : env.writeErr ≠ none
  · rw [if_pos hw, if_pos hw]
    rfl
  · rw [if_neg hw, if_neg hw]
    by_cases hr : env.readErr ≠ none ∧ env.readErr ≠ some GoError.eof
    · rw [if_pos hr]
      rfl
    · rw [if_neg hr]
      cases parseFirstLine (fillBuf (List.replicate 128 0) env.readData) with
      | error f => rfl
      | ok r =>
        obtain ⟨n, e⟩ := r
        cases e <;> rfl

theorem probeBuf_noLF {env : ConnEnv} (h : LF ∉ env.readData) : LF ∉ probeBuf env := by
  intro hm
  simp only [probeBuf, fillBuf, List.mem_append] at hm
  rcases hm with hm | hm
  · exact h (List.mem_of_mem_take hm)
  · have := List.mem_of_mem_drop hm
    rw [List.mem_replicate] at this
    exact absurd this.2 (by decide)

/-- C5: a buffer without an LF makes `parseFirstLine` return the "need more
data" error; hence a probe whose read delivers no LF returns `(0, error)`, and
that error is "need more data" whenever the write succeeded and the read
returned `nil` or `io.EOF`. -/
theorem short_read_fails_probe (buf : List Byte) (hbuf : LF ∉ buf)
    (env : ConnEnv) (henv : LF ∉ env.readData) :
    parseFirstLine buf = .ok (0, some .needMoreData) ∧
    (∃ e, (pingInternal env).1 = .ok (0, some e)) ∧
    (env.writeErr = none → (env.readErr = none ∨ env.readErr = some .eof) →
      (pingInternal env).1 = .ok (0, some .needMoreData)) := by
  have hparse := parseFirstLine_noLF (probeBuf_noLF henv)
  refine ⟨parseFirstLine_noLF hbuf, ?_, ?_⟩
  · rw [pingInternal_fst, hparse]
    split_ifs with hw hr
    · cases hwe : env.writeErr with
      | none => exact absurd hwe hw
      | some e => exact ⟨e, rfl⟩
    · cases hre : env.readErr with
      | none => exact absurd hre hr.1
      | some e => exact ⟨e, rfl⟩
    · exact ⟨_, rfl⟩
  · intro hw hr
    rw [pingInternal_fst, hparse, hw]
    rcases hr with hr | hr <;> simp [hr]

/-- Witness for C5: the read delivers `"HTTP/1.1 204"` and nothing more. -/
theorem short_read_fails_probe_witness :
    LF ∉ bytesOf "HTTP/1.1 204" ∧ LF ∉ shortRead.readData ∧
      parseFirstLine (bytesOf "HTTP/1.1 204") = .ok (0, some .needMoreData) ∧
      (pingInternal shortRead).1 = .ok (0, some .needMoreData) :=
  have h := short_read_fails_probe (bytesOf "HTTP/1.1 204") (by decide) shortRead (by decide)
  ⟨by decide, by decide, h.1, h.2.2 rfl (Or.inl rfl)⟩

/-- C8: on every run of `pingInternal` the connection's `Close` is the last
thing asked of the connection (and is asked once), the run returns without a
fault, and whenever it returns an error the elapsed value is 0. -/
theorem pingInternal_closes_on_every_path (env : ConnEnv) :
    (∃ tr, (pingInternal env).2 = tr ++ [ConnEvent.close] ∧ ConnEvent.close ∉ tr) ∧
    (∃ elapsed err, (pingInternal env).1 = .ok (elapsed, err) ∧ (err = none ∨ elapsed = 0)) := by
  constructor
  · rw [pingInternal_snd]
    refine ⟨_, rfl, ?_⟩
    split_ifs <;> simp
  · rw [pingInternal_fst]
    split_ifs
    · exact ⟨0, _, rfl, Or.inr rfl⟩
    · exact ⟨0, _, rfl, Or.inr rfl⟩
    · rcases parseFirstLine_returns (probeBuf env) with ⟨n, h⟩ | ⟨e, h⟩
      · rw [h]
        exact ⟨_, none, rfl, Or.inl rfl⟩
      · rw [h]
        exact ⟨0, some e, rfl, Or.inr rfl⟩

theorem pingInternal_success {env : ConnEnv} {elapsed : Int}
    (h : (pingInternal env).1 = .ok (elapsed, none)) :
    elapsed = milliseconds (timeSub env.nowEnd env.nowStart) := by
  rw [pingInternal_fst] at h
  split_ifs at h with hw hr
  · simp only [Except.ok.injEq, Prod.mk.injEq] at h
    exact absurd h.2 hw
  · simp only [Except.ok.injEq, Prod.mk.injEq] at h
    exact absurd h.2 hr.1
  · split at h
    · simp at h
    · simp at h
    · simp only [Except.ok.injEq, Prod.mk.injEq, and_true] at h
      exact h.symm

/-- C7 (amended): for clock readings `start ≤ end`, a run of `pingInternal` that
returns a nil error returns the whole milliseconds of `end - start`: a value
that is `≥ 0`, and `> 0` exactly when at least one millisecond elapsed. -/
theorem pingInternal_elapsed_nonneg (env : ConnEnv) (elapsed : Int)
    (hclock : env.nowStart ≤ env.nowEnd)
    (hok : (pingInternal env).1 = .ok (elapsed, none)) :
    0 ≤ elapsed ∧ elapsed = milliseconds (timeSub env.nowEnd env.nowStart) ∧
      (0 < elapsed ↔ 1000000 ≤ env.nowEnd - env.nowStart) := by
  have he := pingInternal_success hok
  have hmax : maxInt = 2 ^ 63 - 1 := rfl
  have hmin : minInt = -(2 ^ 63) := rfl
  have hd : 0 ≤ timeSub env.nowEnd env.nowStart ∧
      (1000000 ≤ timeSub env.nowEnd env.nowStart ↔ 1000000 ≤ env.nowEnd - env.nowStart) := by
    simp only [timeSub]
    split_ifs <;> omega
  have hdiv : milliseconds (timeSub env.nowEnd env.nowStart) =
      timeSub env.nowEnd env.nowStart / 1000000 := by
    simp only [milliseconds]
    exact Int.tdiv_eq_ediv hd.1 (by norm_num)
  rw [he, hdiv]
  refine ⟨by omega, rfl, ?_⟩
  rw [← hd.2]
  omega

/-- Witness for C7 (amended): a reply within the same millisecond. -/
theorem pingInternal_elapsed_nonneg_witness :
    fastReply.nowStart ≤ fastReply.nowEnd ∧ (pingInternal fastReply).1 = .ok (0, none) ∧
      ((0 : Int) ≤ 0 ∧ (0 : Int) = milliseconds (timeSub fastReply.nowEnd fastReply.nowStart) ∧
        ((0 : Int) < 0 ↔ 1000000 ≤ fastReply.nowEnd - fastReply.nowStart)) :=
  have h : (pingInternal fastReply).1 = .ok (0, none) := by decide
  ⟨by decide, h, pingInternal_elapsed_nonneg fastReply 0 (by decide) h⟩

/-- C7 (as stated) fails: with `start < end` less than a millisecond apart, the
probe succeeds and returns elapsed `0`, which is not `> 0`. -/
theorem pingInternal_elapsed_zero_counterexample :
    fastReply.nowStart < fastReply.nowEnd ∧ (pingInternal fastReply).1 = .ok (0, none) ∧
      ¬ (∀ (env : ConnEnv) (elapsed : Int), env.nowStart ≤ env.nowEnd →
          (pingInternal env).1 = .ok (elapsed, none) → 0 < elapsed) := by
  have h : (pingInternal fastReply).1 = .ok (0, none) := by decide
  refine ⟨by decide, h, fun hall => ?_⟩
  exact absurd (hall fastReply 0 (by decide) h) (by decide)

theorem pingConstruct_shadowSocks (env : PingEnv) (cfg : Nat) :
    pingConstruct env (.shadowSocks cfg) =
      if (env.newShadowSocks cfg).2 ≠ none then
        .error (.ok (0, (env.newShadowSocks cfg).2), [Event.construct .shadowSocks cfg])
      else .ok ((env.newShadowSocks cfg).1, [Event.construct .shadowSocks cfg]) := by
  rcases h : env.newShadowSocks cfg with ⟨d, err⟩
  cases err <;>
    simp [pingConstruct, h, bind, Except.bind, pure, Except.pure, throw, throwThe,
      MonadExceptOf.throw]

theorem pingConstruct_shadowSocksR (env : PingEnv) (cfg : Nat) :
    pingConstruct env (.shadowSocksR cfg) =
      if (env.newShadowSocksR cfg).2 ≠ none then
        .error (.ok (0, (env.newShadowSocksR cfg).2), [Event.construct .shadowSocksR cfg])
      else .ok ((env.newShadowSocksR cfg).1, [Event.construct .shadowSocksR cfg]) := by
  rcases h : env.newShadowSocksR cfg with ⟨d, err⟩
  cases err <;>
    simp [pingConstruct, h, bind, Except.bind, pure, Except.pure, throw, throwThe,
      MonadExceptOf.throw]

theorem pingConstruct_vmess (env : PingEnv) (cfg : Nat) :
    pingConstruct env (.vmess cfg) =
      if (env.newVmess cfg).2 ≠ none then
        .error (.ok (0, (env.newVmess cfg).2), [Event.construct .vmess cfg])
      else .ok ((env.newVmess cfg).1, [Event.construct .vmess cfg]) := by
  rcases h : env.newVmess cfg with ⟨d, err⟩
  cases err <;>
    simp [pingConstruct, h, bind, Except.bind, pure, Except.pure, throw, throwThe,
      MonadExceptOf.throw]

theorem pingConstruct_trojan (env : PingEnv) (cfg : Nat) :
    pingConstruct env (.trojan cfg) =
      if (env.newTrojan cfg).2 ≠ none then
        .error (.ok (0, (env.newTrojan cfg).2), [Event.construct .trojan cfg])
      else .ok ((env.newTrojan cfg).1, [Event.construct .trojan cfg]) := by
  rcases h : env.newTrojan cfg with ⟨d, err⟩
  cases err <;>
    simp [pingConstruct, h, bind, Except.bind, pure, Except.pure, throw, throwThe,
      MonadExceptOf.throw]

theorem pingConstruct_other (env : PingEnv) (tag : Nat) :
    pingConstruct env (.other tag) = .ok (none, []) := by
  simp [pingConstruct, bind, Except.bind, pure, Except.pure]

theorem Ping_of_construct {env : PingEnv} {option : ProbeOption} {kind : DialerKind} {cfg : Nat}
    {r : Option Nat × Option GoError}
    (h : pingConstruct env option =
      if r.2 ≠ none then .error (.ok (0, r.2), [Event.construct kind cfg])
      else .ok (r.1, [Event.construct kind cfg])) :
    Ping env option = pingAfter env r [Event.construct kind cfg] := by
  unfold Ping pingAfter
  rw [h]
  by_cases he : r.2 ≠ none
  · rw [if_pos he, if_pos he]
  · rw [if_neg he, if_neg he]
    cases r.1 with
    | none => rfl
    | some d =>
      simp only [pingDial, probeTarget]

theorem Ping_other (env : PingEnv) (tag : Nat) :
    Ping env (.other tag) = (.ok (0, some .notSupportConfig), []) := by
  unfold Ping
  rw [pingConstruct_other]

theorem constructions_conn (l : List ConnEvent) : constructions (l.map Event.conn) = [] := by
  induction l with
  | nil => rfl
  | cons e es ih =>
    simp only [constructions, List.map_cons, List.filterMap_cons] at ih ⊢
    exact ih

theorem constructions_pingAfter (env : PingEnv) (r : Option Nat × Option GoError)
    (kind : DialerKind) (cfg : Nat) :
    constructions (pingAfter env r [Event.construct kind cfg]).2 = [(kind, cfg)] := by
  unfold pingAfter
  split_ifs
  · rfl
  · cases r.1 with
    | none => rfl
    | some d =>
      simp only [pingDial]
      cases env.dialContext d (env.nowCtx + tcpTimeout) probeTarget with
      | error e => rfl
      | ok conn =>
        have h := constructions_conn (pingInternal conn).2
        simp only [constructions, List.filterMap_append] at h ⊢
        rw [h]
        rfl

theorem pingAfter_failed (env : PingEnv) (r : Option Nat × Option GoError) (tr : List Event) :
    r.2 = none ∨ pingAfter env r tr = (.ok (0, r.2), tr) := by
  by_cases h : r.2 = none
  · exact Or.inl h
  · right
    unfold pingAfter
    rw [if_pos h]

/-- C6: `Ping` dispatches on the variant of its option.  For an option of any
other variant it returns `(0, "not support config")` and causes no event at all
(no constructor call, no dial).  For a ShadowSocks, ShadowSocksR, Vmess or
Trojan option the only dialer constructed during the run is the matching one,
and when that constructor returns an error `Ping` returns `(0, that error)`
having done nothing but the construction (no dial). -/
theorem Ping_dispatches_on_variant (env : PingEnv) (cfg tag : Nat) :
    Ping env (.other tag) = (.ok (0, some .notSupportConfig), []) ∧
    (constructions (Ping env (.shadowSocks cfg)).2 = [(.shadowSocks, cfg)] ∧
      ((env.newShadowSocks cfg).2 = none ∨
        Ping env (.shadowSocks cfg) =
          (.ok (0, (env.newShadowSocks cfg).2), [Event.construct .shadowSocks cfg]))) ∧
    (constructions (Ping env (.shadowSocksR cfg)).2 = [(.shadowSocksR, cfg)] ∧
      ((env.newShadowSocksR cfg).2 = none ∨
        Ping env (.shadowSocksR cfg) =
          (.ok (0, (env.newShadowSocksR cfg).2), [Event.construct .shadowSocksR cfg]))) ∧
    (constructions (Ping env (.vmess cfg)).2 = [(.vmess, cfg)] ∧
      ((env.newVmess cfg).2 = none ∨
        Ping env (.vmess cfg) =
          (.ok (0, (env.newVmess cfg).2), [Event.construct .vmess cfg]))) ∧
    (constructions (Ping env (.trojan cfg)).2 = [(.trojan, cfg)] ∧
      ((env.newTrojan cfg).2 = none ∨
        Ping env (.trojan cfg) =
          (.ok (0, (env.newTrojan cfg).2), [Event.construct .trojan cfg]))) := by
  refine ⟨Ping_other env tag, ?_, ?_, ?_, ?_⟩
  · rw [Ping_of_construct (pingConstruct_shadowSocks env cfg)]
    exact ⟨constructions_pingAfter _ _ _ _, pingAfter_failed _ _ _⟩
  · rw [Ping_of_construct (pingConstruct_shadowSocksR env cfg)]
    exact ⟨constructions_pingAfter _ _ _ _, pingAfter_failed _ _ _⟩
  · rw [Ping_of_construct (pingConstruct_vmess env cfg)]
    exact ⟨constructions_pingAfter _ _ _ _, pingAfter_failed _ _ _⟩
  · rw [Ping_of_construct (pingConstruct_trojan env cfg)]
    exact ⟨constructions_pingAfter _ _ _ _, pingAfter_failed _ _ _⟩

theorem pingAfter_snd_of_error {env : PingEnv} {r : Option Nat × Option GoError}
    (tr : List Event) (h : r.2 ≠ none) : (pingAfter env r tr).2 = tr := by
  unfold pingAfter
  rw [if_pos h]

theorem pingAfter_snd_of_nil {env : PingEnv} {r : Option Nat × Option GoError}
    (tr : List Event) (h : ¬ r.2 ≠ none) (hd : r.1 = none) : (pingAfter env r tr).2 = tr := by
  unfold pingAfter
  rw [if_neg h, hd]

theorem pingAfter_snd_of_dial_error {env : PingEnv} {r : Option Nat × Option GoError}
    {d : Nat} {e : GoError} (tr : List Event) (h : ¬ r.2 ≠ none) (hd : r.1 = some d)
    (hc : env.dialContext d (env.nowCtx + tcpTimeout) probeTarget = .error e) :
    (pingAfter env r tr).2 =
      tr ++ [Event.withTimeout (env.nowCtx + tcpTimeout)] ++
        [Event.dialContext d (env.nowCtx + tcpTimeout) probeTarget] ++ [Event.cancel] := by
  unfold pingAfter
  rw [if_neg h, hd]
  simp only [pingDial]
  rw [hc]

theorem pingAfter_snd_of_conn {env : PingEnv} {r : Option Nat × Option GoError}
    {d : Nat} {conn : ConnEnv} (tr : List Event) (h : ¬ r.2 ≠ none) (hd : r.1 = some d)
    (hc : env.dialContext d (env.nowCtx + tcpTimeout) probeTarget = .ok conn) :
    (pingAfter env r tr).2 =
      tr ++ [Event.withTimeout (env.nowCtx + tcpTimeout)] ++
        [Event.dialContext d (env.nowCtx + tcpTimeout) probeTarget] ++
        (pingInternal conn).2.map Event.conn ++ [Event.cancel] := by
  unfold pingAfter
  rw [if_neg h, hd]
  simp only [pingDial]
  rw [hc]

theorem pingAfter_deadline {env : PingEnv} {r : Option Nat × Option GoError}
    {kind : DialerKind} {cfg : Nat} {t : Int}
    (h : Event.conn (.setDeadline t) ∈ (pingAfter env r [Event.construct kind cfg]).2) :
    ∃ d conn, env.dialContext d (env.nowCtx + tcpTimeout) probeTarget = .ok conn ∧
      Event.withTimeout (env.nowCtx + tcpTimeout) ∈
        (pingAfter env r [Event.construct kind cfg]).2 ∧
      t = conn.nowDeadline + tcpTimeout := by
  by_cases he : r.2 ≠ none
  · rw [pingAfter_snd_of_error _ he] at h
    simp at h
  · cases hd : r.1 with
    | none =>
      rw [pingAfter_snd_of_nil _ he hd] at h
      simp at h
    | some d =>
      cases hc : env.dialContext d (env.nowCtx + tcpTimeout) probeTarget with
      | error e =>
        rw [pingAfter_snd_of_dial_error _ he hd hc] at h
        simp at h
      | ok conn =>
        rw [pingAfter_snd_of_conn _ he hd hc] at h ⊢
        refine ⟨d, conn, hc, by simp, ?_⟩
        rw [pingInternal_snd] at h
        have hmem : ConnEvent.setDeadline t ∈
            [ConnEvent.setDeadline (conn.nowDeadline + tcpTimeout), ConnEvent.write httpRequest] ++
              (if conn.writeErr ≠ none then [] else [ConnEvent.read 128]) ++
              [ConnEvent.close] := by
          simpa using h
        rw [List.mem_append, List.mem_append] at hmem
        rcases hmem with (hm | hm) | hm
        · rw [List.mem_cons, List.mem_singleton] at hm
          rcases hm with hm | hm
          · exact ConnEvent.setDeadline.inj hm
          · exact ConnEvent.noConfusion hm
        · split_ifs at hm
          · exact absurd hm (List.not_mem_nil _)
          · rw [List.mem_singleton] at hm
            exact ConnEvent.noConfusion hm
        · rw [List.mem_singleton] at hm
          exact ConnEvent.noConfusion hm

/-- C9 (amended): the read/write deadline `pingInternal` sets on the tunnel is
2400 ms after the clock reading taken when `pingInternal` is entered, that is,
after the dial has returned, while the dial has its own context that expires
2400 ms after its creation.  So when the dial returns within the lifetime of its
context, the tunnel deadline lies between 2400 ms and 4800 ms after the
creation of the context. -/
theorem Ping_deadline_counts_from_dial_return (env : PingEnv) (option : ProbeOption) (t : Int)
    (hset : Event.conn (.setDeadline t) ∈ (Ping env option).2) :
    ∃ d conn, env.dialContext d (env.nowCtx + 2400000000) probeTarget = .ok conn ∧
      Event.withTimeout (env.nowCtx + 2400000000) ∈ (Ping env option).2 ∧
      t = conn.nowDeadline + 2400000000 ∧
      (env.nowCtx ≤ conn.nowDeadline → conn.nowDeadline ≤ env.nowCtx + 2400000000 →
        env.nowCtx + 2400000000 ≤ t ∧ t ≤ env.nowCtx + 4800000000) := by
  have key : ∃ d conn, env.dialContext d (env.nowCtx + tcpTimeout) probeTarget = .ok conn ∧
      Event.withTimeout (env.nowCtx + tcpTimeout) ∈ (Ping env option).2 ∧
      t = conn.nowDeadline + tcpTimeout := by
    cases option with
    | shadowSocks cfg =>
      rw [Ping_of_construct (pingConstruct_shadowSocks env cfg)] at hset ⊢
      exact pingAfter_deadline hset
    | shadowSocksR cfg =>
      rw [Ping_of_construct (pingConstruct_shadowSocksR env cfg)] at hset ⊢
      exact pingAfter_deadline hset
    | vmess cfg =>
      rw [Ping_of_construct (pingConstruct_vmess env cfg)] at hset ⊢
      exact pingAfter_deadline hset
    | trojan cfg =>
      rw [Ping_of_construct (pingConstruct_trojan env cfg)] at hset ⊢
      exact pingAfter_deadline hset
    | other tag =>
      rw [Ping_other] at hset
      simp at hset
  have htimeout : tcpTimeout = 2400000000 := by decide
  rw [htimeout] at key
  obtain ⟨d, conn, hdial, hctx, ht⟩ := key
  exact ⟨d, conn, hdial, hctx, ht, fun h1 h2 => by omega⟩

/-- Witness for C9 (amended): a Trojan dial that takes one second. -/
theorem Ping_deadline_counts_from_dial_return_witness :
    Event.conn (.setDeadline 3400000000) ∈ (Ping slowDial (.trojan 0)).2 ∧
    ∃ d conn, slowDial.dialContext d (slowDial.nowCtx + 2400000000) probeTarget = .ok conn ∧
      Event.withTimeout (slowDial.nowCtx + 2400000000) ∈ (Ping slowDial (.trojan 0)).2 ∧
      (3400000000 : Int) = conn.nowDeadline + 2400000000 ∧
      (slowDial.nowCtx ≤ conn.nowDeadline → conn.nowDeadline ≤ slowDial.nowCtx + 2400000000 →
        slowDial.nowCtx + 2400000000 ≤ 3400000000 ∧
          (3400000000 : Int) ≤ slowDial.nowCtx + 4800000000) :=
  ⟨by decide, Ping_deadline_counts_from_dial_return slowDial (.trojan 0) 3400000000 (by decide)⟩

/-- C9 (as stated) fails: `Ping` starts at time 0 and creates the dial context at
once, the dial returns after one second (within the 2400 ms of its context),
and the deadline set on the tunnel is 3400 ms after `Ping` started. -/
theorem Ping_single_deadline_counterexample :
    slowDial.nowEntry ≤ slowDial.nowCtx ∧
    Event.conn (.setDeadline 3400000000) ∈ (Ping slowDial (.trojan 0)).2 ∧
    ¬ ((3400000000 : Int) ≤ slowDial.nowEntry + tcpTimeout) ∧
    ¬ (∀ (env : PingEnv) (option : ProbeOption) (t : Int), env.nowEntry ≤ env.nowCtx →
        (∀ d conn, env.dialContext d (env.nowCtx + tcpTimeout) probeTarget = .ok conn →
          env.nowCtx ≤ conn.nowDeadline ∧ conn.nowDeadline ≤ env.nowCtx + tcpTimeout) →
        Event.conn (.setDeadline t) ∈ (Ping env option).2 → t ≤ env.nowEntry + tcpTimeout) := by
  have hmem : Event.conn (.setDeadline 3400000000) ∈ (Ping slowDial (.trojan 0)).2 := by decide
  refine ⟨by decide, hmem, by decide, fun hall => ?_⟩
  have hdial : ∀ d conn, slowDial.dialContext d (slowDial.nowCtx + tcpTimeout) probeTarget =
      .ok conn → slowDial.nowCtx ≤ conn.nowDeadline ∧
        conn.nowDeadline ≤ slowDial.nowCtx + tcpTimeout := by
    intro d conn h
    simp only [slowDial, Except.ok.injEq] at h
    subst h
    decide
  exact absurd (hall slowDial (.trojan 0) 3400000000 (by decide) hdial hmem) (by decide)

/-- C2 (the code evaluated at the failing input): the 20-digit run
`"21000000000000000000"` denotes a number above the largest `int`, yet
`parseUintBuf` returns the wrapped value 2553255926290448384 with a nil error,
also when the run is followed by `" X"` as in a status line, and
`parseFirstLine` then rejects the line for its status value and not for the
overflow.  The run `"99999999999999999999"` of the specification is detected. -/
theorem parseUintBuf_overflow_undetected :
    (decimalValue ((bytesOf "21000000000000000000").takeWhile isDigit) : Int) > maxInt ∧
    parseUintBuf (bytesOf "21000000000000000000") = .ok (2553255926290448384, 20, none) ∧
    parseUintBuf (bytesOf "21000000000000000000 X") = .ok (2553255926290448384, 20, none) ∧
    parseFirstLine (bytesOf "HTTP/1.1 21000000000000000000 X\r\n") =
      .ok (0, some .wrongStatusCode) ∧
    parseUintBuf (bytesOf "99999999999999999999") = .ok (-1, 18, some .tooLongInt) := by
  decide

end LiteSpeedTest
